import Mathlib

/-!
Verification development for the GPTQ compressor core
(`llmcompressor/modifiers/quantization/gptq`): the Hessian accumulator,
the column-wise quantization loop, and the graph partitioner / sequential
executor.  Tensors of the source are modelled over `ℚ` (exact arithmetic
stands in for the float runtime); fallible code is modelled with `Except`.
-/

namespace Hessian

/-- A row of activations with `k` input features (one sequence position). -/
abbrev Row (k : ℕ) := Fin k → ℚ

/-- Outer product `x·xᵀ` of a single activation row, the contribution of one
sequence position to `inp.matmul(inp.t())` in `add_batch`. -/
def outer {k : ℕ} (r : Row k) : Matrix (Fin k) (Fin k) ℚ :=
  Matrix.of fun i j => r i * r j

/-- `Xᵀ·X` for a stack of rows `X`: the Gram matrix `inp.matmul(inp.t())`
computed by `add_batch` after transposing the flattened input. -/
def gram {k : ℕ} (rows : List (Row k)) : Matrix (Fin k) (Fin k) ℚ :=
  (rows.map outer).sum

/-- An input activation tensor as received by `GPTQWrapper.add_batch`:
either rank 2 (`positions × features`) or rank 3
(`batch × positions × features`). -/
inductive Act (k : ℕ)
  | r2 (rows : List (Row k))
  | r3 (batch : List (List (Row k)))

/-- `inp.unsqueeze(0)` applied when `len(inp.shape) == 2`: a rank-2 tensor
becomes a rank-3 tensor with a leading batch dimension of size 1. -/
def Act.unsq {k : ℕ} : Act k → List (List (Row k))
  | Act.r2 rows => [rows]
  | Act.r3 batch => batch

/-- `GPTQWrapper.add_batch` (= `gptq_quantize.add_batch`) for a Linear /
Conv1D module, translated to exact arithmetic:
`tmp = inp.shape[0]` after the rank-2 unsqueeze, the rank-3 input is
flattened to rows and transposed, `H` is decayed by `n/(n+tmp)`,
`nsamples` is advanced, and the scaled Gram matrix is added.  The source
scales the input by `sqrt(2/nsamples)` and adds `inp·inpᵀ`; the square
root enters only through that product, so the update adds
`(2/nsamples) • (Xᵀ·X)` exactly. -/
def add_batch {k : ℕ} (st : Matrix (Fin k) (Fin k) ℚ × ℕ) (inp : Act k) :
    Matrix (Fin k) (Fin k) ℚ × ℕ :=
  let inp3 := inp.unsq
  let tmp := inp3.length
  let n := st.2
  (((n : ℚ) / ((n : ℚ) + (tmp : ℚ))) • st.1 +
      ((2 : ℚ) / ((n : ℚ) + (tmp : ℚ))) • gram inp3.flatten,
    n + tmp)

/-- Folding `add_batch` over a list of rank-3 batches starting from the
zero-initialized state, as the calibration driver does. -/
def accumulate {k : ℕ} (chunks : List (List (List (Row k)))) :
    Matrix (Fin k) (Fin k) ℚ × ℕ :=
  chunks.foldl (fun st c => add_batch st (Act.r3 c)) (0, 0)

/-- All activation rows of a chunk list, in order. -/
def allRows {k : ℕ} (chunks : List (List (List (Row k)))) : List (Row k) :=
  (chunks.map List.flatten).flatten

end Hessian

namespace GPTQ

open Hessian

/-- A weight / working matrix with `r` output rows and `c` input columns. -/
abbrev Mat (r c : ℕ) := Matrix (Fin r) (Fin c) ℚ

/-- Column `j` of a matrix, read with a `ℕ` index (0 outside range; all loop
indices of the source stay in range). -/
def colGet {r c : ℕ} (M : Mat r c) (j : ℕ) : Fin r → ℚ :=
  fun a => if h : j < c then M a ⟨j, h⟩ else 0

/-- Entry of a matrix at a `ℕ` column index. -/
def entryN {r c : ℕ} (M : Mat r c) (a : Fin r) (j : ℕ) : ℚ := colGet M j a

/-- Entry of a square matrix at `ℕ` indices (0 outside range). -/
def Hget {c : ℕ} (M : Mat c c) (i j : ℕ) : ℚ :=
  if h : i < c then (if h2 : j < c then M ⟨i, h⟩ ⟨j, h2⟩ else 0) else 0

/-- Overwrite column `j` of a matrix with the vector `v`. -/
def colSet {r c : ℕ} (M : Mat r c) (j : ℕ) (v : Fin r → ℚ) : Mat r c :=
  Matrix.of fun a b => if (b : ℕ) = j then v a else M a b

/-- Sparsity-mask factor: `1` when no mask is active, else the mask entry
(`W_nz_mask`), so masked and unmasked update branches share one formula. -/
def maskAt {r c : ℕ} (mask : Option (Mat r c)) (a : Fin r) (b : Fin c) : ℚ :=
  match mask with
  | none => 1
  | some m => m a b

/-- Round to nearest integer: a concrete instance of the opaque
`fake_quantize` collaborator (integer quantization with scale 1, zero
point 0 and a wide enough bit width). -/
def roundQ (q : ℚ) : ℚ := ((⌊q + 1/2⌋ : ℤ) : ℚ)

/-- Rational square root: exact on squares of rationals (a reduced
fraction is a square iff its numerator and denominator are perfect
squares); arbitrary (floor-based) elsewhere.  The linear-algebra runtime
performing the factorization is an external dependency of the core; this
function reproduces it exactly on the matrices appearing in concrete
theorems below, whose pivots are rational squares. -/
def sqrtQ (q : ℚ) : ℚ :=
  if q ≤ 0 then 0 else ((Nat.sqrt q.num.toNat : ℚ) / (Nat.sqrt q.den : ℚ))

/-- Exact inverse of a rational square matrix via the adjugate (zero when
singular; only used behind the positive-definiteness check). -/
def matInv {n : ℕ} (A : Matrix (Fin n) (Fin n) ℚ) : Matrix (Fin n) (Fin n) ℚ :=
  (A.det)⁻¹ • A.adjugate

/-- Leading principal minor of order `k+1`. -/
def leadingMinor {n : ℕ} (A : Matrix (Fin n) (Fin n) ℚ) (k : Fin n) : ℚ :=
  (A.submatrix
    (fun i : Fin (k.val + 1) => (⟨i.val, Nat.lt_of_lt_of_le i.isLt k.isLt⟩ : Fin n))
    (fun i : Fin (k.val + 1) => (⟨i.val, Nat.lt_of_lt_of_le i.isLt k.isLt⟩ : Fin n))).det

/-- Sylvester's criterion: `torch.linalg.cholesky` succeeds exactly on
(symmetric) positive-definite input, i.e. when every leading principal
minor is positive. -/
def isPD {n : ℕ} (A : Matrix (Fin n) (Fin n) ℚ) : Prop :=
  ∀ k : Fin n, 0 < leadingMinor A k

instance isPD_dec {n : ℕ} (A : Matrix (Fin n) (Fin n) ℚ) : Decidable (isPD A) :=
  inferInstanceAs (Decidable (∀ k : Fin n, 0 < leadingMinor A k))

/-- One row of the upper Cholesky factorization `A = UᵀU`
(Cholesky-Banachiewicz): row `i` is filled from the already-computed rows
`0..i-1`. -/
def cholStep {n : ℕ} (A : Matrix (Fin n) (Fin n) ℚ)
    (U : Matrix (Fin n) (Fin n) ℚ) (i : ℕ) : Matrix (Fin n) (Fin n) ℚ :=
  let s : ℕ → ℚ := fun j =>
    Hget A i j - ∑ p ∈ Finset.range i, Hget U p i * Hget U p j
  let piv := sqrtQ (s i)
  Matrix.of fun a b =>
    if (a : ℕ) = i then
      (if (b : ℕ) < i then 0 else if (b : ℕ) = i then piv else s (b : ℕ) / piv)
    else U a b

/-- Upper-triangular Cholesky factor (`torch.linalg.cholesky(·, upper=True)`):
unique for positive-definite input, computed row by row. -/
def cholUpperQ {n : ℕ} (A : Matrix (Fin n) (Fin n) ℚ) :
    Matrix (Fin n) (Fin n) ℚ :=
  (List.range n).foldl (cholStep A) 0

/-- `torch.mean(torch.diag(H))`. -/
def meanDiag {n : ℕ} (A : Matrix (Fin n) (Fin n) ℚ) : ℚ :=
  (∑ j, A j j) / (n : ℚ)

/-- The damped Hessian: `H[diag, diag] += percdamp * mean(diag(H))`. -/
def dampedH {n : ℕ} (H : Matrix (Fin n) (Fin n) ℚ) (percdamp : ℚ) :
    Matrix (Fin n) (Fin n) ℚ :=
  H + (percdamp * meanDiag H) • (1 : Matrix (Fin n) (Fin n) ℚ)

/-- `invert_hessian` of `gptq_quantize.py`: damp the diagonal, then
`cholesky`, `cholesky_inverse`, `cholesky(·, upper=True)`.  The first two
steps compose to the exact inverse of the damped matrix; the factorization
raises (modelled as `Except.error`) exactly when the damped matrix is not
positive-definite. -/
def invert_hessian {n : ℕ} (H : Matrix (Fin n) (Fin n) ℚ) (percdamp : ℚ) :
    Except String (Matrix (Fin n) (Fin n) ℚ) :=
  let D := dampedH H percdamp
  if isPD D then Except.ok (cholUpperQ (matInv D))
  else Except.error "linalg.cholesky: input matrix is not positive-definite"

/-- `compute_hessian` of `gptq_quantize.py`: unsqueeze a rank-2 input,
take `nsamples = inp.shape[0]`, flatten and transpose, and return the Gram
matrix scaled by `2 / nsamples` (the `sqrt` enters only squared). -/
def compute_hessian {c : ℕ} (inp : Act c) : Matrix (Fin c) (Fin c) ℚ :=
  let inp3 := inp.unsq
  ((2 : ℚ) / (inp3.length : ℚ)) • gram inp3.flatten

/-- `QuantizationStrategy` values supported by the GPTQ loop. -/
inductive QStrategy
  | tensor
  | channel
  | group
deriving DecidableEq

/-- `ActivationOrdering` values (`None` is modelled by `Option`). -/
inductive AOrder
  | group
  | weight
deriving DecidableEq

/-- Insert into a sorted list, keeping `x` before the first element `y`
with `le x y`. -/
def insertSorted {α : Type} (le : α → α → Bool) (x : α) : List α → List α
  | [] => [x]
  | y :: ys => if le x y then x :: y :: ys else y :: insertSorted le x ys

/-- Stable insertion sort. -/
def isortBy {α : Type} (le : α → α → Bool) : List α → List α
  | [] => []
  | x :: xs => insertSorted le x (isortBy le xs)

/-- `torch.argsort(d, descending=True)` (stable on the tie-free inputs
used below). -/
def argsortDesc {n : ℕ} (d : Fin n → ℚ) : List (Fin n) :=
  isortBy (fun i j => decide (d j ≤ d i)) (List.finRange n)

/-- `torch.argsort` ascending over integer keys. -/
def argsortAscNat {n : ℕ} (d : Fin n → ℕ) : List (Fin n) :=
  isortBy (fun i j => decide (d i ≤ d j)) (List.finRange n)

/-- Index list as a function (identity off the end; never reached since
the argsort lists are permutations of `finRange`). -/
def permFun {n : ℕ} (l : List (Fin n)) : Fin n → Fin n :=
  fun k => l.getD (k : ℕ) k

/-- `_apply_activation_ordering`: permute the columns of `W` and both axes
of `H` by descending Hessian diagonal. -/
def apply_activation_ordering {r c : ℕ} (W : Mat r c) (H : Mat c c) :
    Mat r c × Mat c c × (Fin c → Fin c) :=
  let p := permFun (argsortDesc (fun j => H j j))
  (Matrix.of fun a k => W a (p k), Matrix.of fun i j => H (p i) (p j), p)

/-- `torch.argsort(perm)`: the inverse permutation. -/
def invPerm {c : ℕ} (p : Fin c → Fin c) : Fin c → Fin c :=
  permFun (argsortAscNat (fun k => (p k : ℕ)))

/-- Modelled from the spec: `tensor_sparsity` (helper not under `src/`) is
the fraction of exactly-zero entries of the weight; `isclose` to zero is
modelled as exact equality. -/
def sparsity {r c : ℕ} (W : Mat r c) : ℚ :=
  ((Finset.univ.filter (fun ab : Fin r × Fin c => W ab.1 ab.2 = 0)).card : ℚ) /
    ((r * c : ℕ) : ℚ)

/-- `H[dead, dead] = 1`: force the diagonal to one at dead columns (those
whose Hessian diagonal is exactly zero); off-diagonal entries are
untouched. -/
def maskDeadH {c : ℕ} (H : Mat c c) : Mat c c :=
  Matrix.of fun i j => if i = j ∧ H j j = 0 then 1 else H i j

/-- `W[:, dead] = 0`: zero the weight columns whose Hessian diagonal is
exactly zero. -/
def maskDeadW {r c : ℕ} (H : Mat c c) (W : Mat r c) : Mat r c :=
  Matrix.of fun a b => if H b b = 0 then 0 else W a b

/-- The strategy / activation-ordering dispatch shared verbatim by
`quantize_weight` and `GPTQWrapper.compress`: for the group strategy an a
priori column→group map is built, and under activation ordering the
weight and Hessian are permuted, with the observer (`σ`, opaque
scale/zero-point state) invoked after permuting (GROUP) or before
(WEIGHT, in which case the group map is permuted instead). -/
def dispatch {r c : ℕ} {σ : Type} (observer : Mat r c → σ)
    (strategy : QStrategy) (actorder : Option AOrder) (group_size : ℕ)
    (W0 : Mat r c) (H0 : Mat c c) :
    Mat r c × Mat c c × Option (Fin c → Fin c) × σ × (Fin c → ℕ) :=
  let gdef : Fin c → ℕ := fun j => (j : ℕ) / group_size
  match strategy, actorder with
  | QStrategy.group, some AOrder.group =>
      let x := apply_activation_ordering W0 H0
      (x.1, x.2.1, some x.2.2, observer x.1, gdef)
  | QStrategy.group, some AOrder.weight =>
      let sz := observer W0
      let x := apply_activation_ordering W0 H0
      (x.1, x.2.1, some x.2.2, sz, fun j => gdef (x.2.2 j))
  | _, _ => (W0, H0, none, observer W0, gdef)

/-- Inner column step of the `quantize_weight` block loop
(`gptq_quantize.py`, inner `for i in range(count)`): note the source reads
`w = weight_original[:, i]` with the *within-block* index `i`, not the
global column index `i1 + i`; this is translated as written. -/
def qwInner {r c : ℕ} (Hinv : Mat c c) (Worig : Mat r c)
    (qf : ℕ → (Fin r → ℚ) → Fin r → ℚ) (mask : Option (Mat r c))
    (i1 i2 : ℕ) (st : Mat r c × Mat r c × Mat r c × Mat r c) (i : ℕ) :
    Mat r c × Mat r c × Mat r c × Mat r c :=
  let W1 := st.1
  let Q1 := st.2.1
  let Err1 := st.2.2.1
  let L1 := st.2.2.2
  let j := i1 + i
  let w := colGet Worig i
  let d := Hget Hinv j j
  let q := qf j (colGet W1 j)
  let L1n := colSet L1 j (fun a => (w a - q a) ^ 2 / d ^ 2)
  let err := fun a => (w a - q a) / d
  let W1n : Mat r c := Matrix.of fun a b =>
    if j ≤ (b : ℕ) ∧ (b : ℕ) < i2 then
      W1 a b - err a * Hget Hinv j (b : ℕ) * maskAt mask a b
    else W1 a b
  (W1n, colSet Q1 j q, colSet Err1 j err, L1n)

/-- One block of the `quantize_weight` loop: clone the block, run the
inner column loop, write the quantized block back, accumulate the halved
row sums of the losses, and propagate the block error
`Err1 · Hinv[i1:i2, i2:]` to all later columns. -/
def qwBlock {r c : ℕ} (Hinv : Mat c c) (Worig : Mat r c)
    (qf : ℕ → (Fin r → ℚ) → Fin r → ℚ) (mask : Option (Mat r c))
    (blocksize : ℕ) (st : Mat r c × (Fin r → ℚ)) (i1 : ℕ) :
    Mat r c × (Fin r → ℚ) :=
  let W := st.1
  let losses := st.2
  let i2 := min (i1 + blocksize) c
  let count := i2 - i1
  let fin := (List.range count).foldl (qwInner Hinv Worig qf mask i1 i2)
    (W, 0, 0, 0)
  let Q1 := fin.2.1
  let Err1 := fin.2.2.1
  let L1 := fin.2.2.2
  let Wn : Mat r c := Matrix.of fun a b =>
    if i1 ≤ (b : ℕ) ∧ (b : ℕ) < i2 then Q1 a b
    else if i2 ≤ (b : ℕ) then
      W a b -
        (∑ p ∈ Finset.range count, entryN Err1 a (i1 + p) * Hget Hinv (i1 + p) (b : ℕ)) *
          maskAt mask a b
    else W a b
  (Wn, fun a => losses a + (∑ b, L1 a b) / 2)

/-- Number of blocks of `range(0, num_columns, blocksize)`. -/
def nblocks (cols blocksize : ℕ) : ℕ := (cols + blocksize - 1) / blocksize

/-- Block starts of `range(0, num_columns, blocksize)`. -/
def blockStarts (cols blocksize : ℕ) : List ℕ :=
  (List.range (nblocks cols blocksize)).map (fun b => b * blocksize)

/-- The full block-wise quantize-and-propagate loop of `quantize_weight`
(lines 191-264 of `gptq_quantize.py`), returning the worked weight and the
per-row accumulated losses. -/
def qwLoop {r c : ℕ} (Hinv : Mat c c) (Worig : Mat r c)
    (qf : ℕ → (Fin r → ℚ) → Fin r → ℚ) (mask : Option (Mat r c))
    (blocksize : ℕ) (W0 : Mat r c) : Mat r c × (Fin r → ℚ) :=
  (blockStarts c blocksize).foldl (qwBlock Hinv Worig qf mask blocksize) (W0, 0)

/-- `quantize_weight` of `gptq_quantize.py` for a Linear module (no
Conv-style reshape), translated to exact arithmetic.

External collaborators are parameters: `observer` is the opaque
scale/zero-point estimator (`compute_scale_zero_point`), and `qf` is the
per-column quantizer covering the strategy dispatch of lines 209-242
(each branch calls the opaque `fake_quantize` with a fixed scale /
zero-point slice selected by the global column index).  `weight_original`
is a required argument here: the source declares it `Optional` with
default `None` but dereferences it unconditionally in the inner loop (the
caller in `base.py` omits it, which crashes).  The unsupported-strategy
`ValueError` branch has no counterpart because `QStrategy` enumerates
exactly the supported strategies. -/
def quantize_weight {r c : ℕ} {σ : Type} (observer : Mat r c → σ)
    (qf : ℕ → (Fin r → ℚ) → Fin r → ℚ)
    (strategy : QStrategy) (actorder : Option AOrder) (group_size : ℕ)
    (sparsityThreshold : ℚ) (weight : Mat r c) (inp : Act c)
    (blocksize : ℕ) (percdamp : ℚ) (weight_original : Mat r c) :
    Except String (ℚ × Mat r c × σ × Option (Fin c → ℕ)) :=
  let H0 := compute_hessian inp
  let disp := dispatch observer strategy actorder group_size weight H0
  let W1 := disp.1
  let H1 := disp.2.1
  let permOpt := disp.2.2.1
  let sz := disp.2.2.2.1
  let g_idx := disp.2.2.2.2
  let preserve := sparsityThreshold ≤ sparsity W1
  let mask : Option (Mat r c) :=
    if preserve then some (Matrix.of fun a b => if W1 a b = 0 then 0 else 1)
    else none
  let Hm := maskDeadH H1
  let Wm := maskDeadW H1 W1
  match invert_hessian Hm percdamp with
  | Except.error e => Except.error e
  | Except.ok Hinv =>
    let res := qwLoop Hinv weight_original qf mask blocksize Wm
    let Wq := res.1
    let losses := res.2
    let fin :=
      match strategy, actorder, permOpt with
      | QStrategy.group, some AOrder.weight, some p =>
          ((Matrix.of fun a k => Wq a (invPerm p k) : Mat r c), g_idx, false)
      | QStrategy.group, some AOrder.group, some p =>
          ((Matrix.of fun a k => Wq a (invPerm p k) : Mat r c),
            fun j => g_idx (invPerm p j), true)
      | _, _, _ => (Wq, g_idx, false)
    Except.ok (∑ a, losses a, fin.1, sz,
      if fin.2.2 then some fin.2.1 else none)

/-- Inner column step of the `GPTQWrapper.compress` block loop
(`gptq_wrapper.py`, inner `for i in range(count)`).  Unlike
`quantize_weight`, the wrapper reads `w = W1[:, i]`, the *current* value
of the column being quantized.  The quantizer `qf` is stateful (state
type `qS`): it covers lines 204-250, where under the group strategy with
a non-WEIGHT activation ordering the observer recomputes the group scale
from the current outer working matrix `W` at group boundaries and the
scale matrix persists across columns. -/
def cwInner {r c : ℕ} {qS : Type} (Hinv : Mat c c)
    (qf : qS → ℕ → Mat r c → (Fin r → ℚ) → (Fin r → ℚ) × qS)
    (mask : Option (Mat r c)) (Wout : Mat r c) (i1 i2 : ℕ)
    (st : Mat r c × Mat r c × Mat r c × Mat r c × qS) (i : ℕ) :
    Mat r c × Mat r c × Mat r c × Mat r c × qS :=
  let W1 := st.1
  let Q1 := st.2.1
  let Err1 := st.2.2.1
  let L1 := st.2.2.2.1
  let qs := st.2.2.2.2
  let j := i1 + i
  let w := colGet W1 j
  let d := Hget Hinv j j
  let qq := qf qs j Wout w
  let q := qq.1
  let L1n := colSet L1 j (fun a => (w a - q a) ^ 2 / d ^ 2)
  let err := fun a => (w a - q a) / d
  let W1n : Mat r c := Matrix.of fun a b =>
    if j ≤ (b : ℕ) ∧ (b : ℕ) < i2 then
      W1 a b - err a * Hget Hinv j (b : ℕ) * maskAt mask a b
    else W1 a b
  (W1n, colSet Q1 j q, colSet Err1 j err, L1n, qq.2)

/-- One block of the `GPTQWrapper.compress` loop. -/
def cwBlock {r c : ℕ} {qS : Type} (Hinv : Mat c c)
    (qf : qS → ℕ → Mat r c → (Fin r → ℚ) → (Fin r → ℚ) × qS)
    (mask : Option (Mat r c)) (blocksize : ℕ)
    (st : Mat r c × (Fin r → ℚ) × qS) (i1 : ℕ) :
    Mat r c × (Fin r → ℚ) × qS :=
  let W := st.1
  let losses := st.2.1
  let i2 := min (i1 + blocksize) c
  let count := i2 - i1
  let fin := (List.range count).foldl (cwInner Hinv qf mask W i1 i2)
    (W, 0, 0, 0, st.2.2)
  let Q1 := fin.2.1
  let Err1 := fin.2.2.1
  let L1 := fin.2.2.2.1
  let Wn : Mat r c := Matrix.of fun a b =>
    if i1 ≤ (b : ℕ) ∧ (b : ℕ) < i2 then Q1 a b
    else if i2 ≤ (b : ℕ) then
      W a b -
        (∑ p ∈ Finset.range count, entryN Err1 a (i1 + p) * Hget Hinv (i1 + p) (b : ℕ)) *
          maskAt mask a b
    else W a b
  (Wn, fun a => losses a + (∑ b, L1 a b) / 2, fin.2.2.2.2)

/-- The full block loop of `GPTQWrapper.compress` (lines 186-272 of
`gptq_wrapper.py`). -/
def cwLoop {r c : ℕ} {qS : Type} (Hinv : Mat c c)
    (qf : qS → ℕ → Mat r c → (Fin r → ℚ) → (Fin r → ℚ) × qS)
    (mask : Option (Mat r c)) (blocksize : ℕ) (W0 : Mat r c) (qs0 : qS) :
    Mat r c × (Fin r → ℚ) × qS :=
  (blockStarts c blocksize).foldl (cwBlock Hinv qf mask blocksize) (W0, 0, qs0)

/-- The exact `ValueError` message raised by `GPTQWrapper.compress` when
the Cholesky factorization of the damped Hessian fails. -/
def choleskyFailureMsg : String :=
  "Failed to invert hessian due to numerical instability. Consider increasing GPTQModifier.dampening_frac, increasing the number of calibration samples, or shuffling the calibration dataset"

/-- `GPTQWrapper.compress` (for a Linear module with a quantization
scheme present), translated to exact arithmetic.  `obsInit` is the opaque
observer producing the initial scale/zero-point state `qS`, consumed and
updated by the stateful quantizer `qf`; `H0` is the accumulated Hessian
buffer `self.H`.  The `try`/`except` around the three factorization steps
is translated to `Except`: when the damped (dead-masked) Hessian is not
positive-definite the result is `Except.error choleskyFailureMsg` and no
quantized weight is produced; otherwise the block loop runs and the final
weight, scale state, optional `weight_g_idx` write and per-row losses are
returned. -/
def compress {r c : ℕ} {qS : Type} (obsInit : Mat r c → qS)
    (qf : qS → ℕ → Mat r c → (Fin r → ℚ) → (Fin r → ℚ) × qS)
    (strategy : QStrategy) (actorder : Option AOrder) (group_size : ℕ)
    (sparsityThreshold : ℚ) (weight : Mat r c) (H0 : Mat c c)
    (blocksize : ℕ) (percdamp : ℚ) :
    Except String (Mat r c × qS × Option (Fin c → ℕ) × (Fin r → ℚ)) :=
  let disp := dispatch obsInit strategy actorder group_size weight H0
  let W1 := disp.1
  let H1 := disp.2.1
  let permOpt := disp.2.2.1
  let qs0 := disp.2.2.2.1
  let g_idx := disp.2.2.2.2
  let preserve := sparsityThreshold ≤ sparsity W1
  let mask : Option (Mat r c) :=
    if preserve then some (Matrix.of fun a b => if W1 a b = 0 then 0 else 1)
    else none
  let Hm := maskDeadH H1
  let Wm := maskDeadW H1 W1
  let D := dampedH Hm percdamp
  if isPD D then
    let Hinv := cholUpperQ (matInv D)
    let res := cwLoop Hinv qf mask blocksize Wm qs0
    let Wq := res.1
    let losses := res.2.1
    let fin :=
      match strategy, actorder, permOpt with
      | QStrategy.group, some AOrder.weight, some p =>
          ((Matrix.of fun a k => Wq a (invPerm p k) : Mat r c), g_idx, false)
      | QStrategy.group, some AOrder.group, some p =>
          ((Matrix.of fun a k => Wq a (invPerm p k) : Mat r c),
            fun j => g_idx (invPerm p j), true)
      | _, _, _ => (Wq, g_idx, false)
    Except.ok (fin.1, res.2.2,
      if fin.2.2 then some fin.2.1 else none, losses)
  else Except.error choleskyFailureMsg

/-- Partial Cholesky run: rows `0..m-1` filled in. -/
def cholPrefix {n : ℕ} (A : Matrix (Fin n) (Fin n) ℚ) (m : ℕ) :
    Matrix (Fin n) (Fin n) ℚ :=
  (List.range m).foldl (cholStep A) 0

/-- The per-column loss formula prescribed by the specification: for every
column, the squared difference between that column's own weight value and
its quantized value, divided by the squared diagonal entry of the inverted
damped Hessian for that column, summed over output rows; the total is the
sum over columns halved. -/
def perColumnLossSpec {r c : ℕ} (orig quant : Mat r c) (Hinv : Mat c c) : ℚ :=
  (∑ j : Fin c, ∑ a : Fin r, (orig a j - quant a j) ^ 2 / (Hinv j j) ^ 2) / 2

end GPTQ

instance instDecEqExcept {E A : Type} [DecidableEq E] [DecidableEq A] :
    DecidableEq (Except E A) := fun a b =>
  match a, b with
  | Except.ok x, Except.ok y =>
      if h : x = y then Decidable.isTrue (congrArg Except.ok h)
      else Decidable.isFalse (fun hc => h (Except.ok.inj hc))
  | Except.ok _, Except.error _ => Decidable.isFalse (fun hc => Except.noConfusion hc)
  | Except.error _, Except.ok _ => Decidable.isFalse (fun hc => Except.noConfusion hc)
  | Except.error e, Except.error f =>
      if h : e = f then Decidable.isTrue (congrArg Except.error h)
      else Decidable.isFalse (fun hc => h (Except.error.inj hc))

namespace Partition

/-- Operation kind of a `torch.fx` node. -/
inductive Op
  | placeholder
  | callmod
  | getattr
  | output
deriving DecidableEq

/-- A `torch.fx` node, addressed by a numeric id: `all_input_nodes` and
`users` are lists of ids (`users` is a dict keyed by node, hence
duplicate-free in real graphs; `check_assumption` verifies this). -/
structure Node where
  id : ℕ
  op : Op
  inputs : List ℕ
  users : List ℕ
deriving DecidableEq

/-- A graph is its ordered node list. -/
abbrev Graph := List Node

def lookup (g : Graph) (i : ℕ) : Option Node := g.find? (fun n => decide (n.id = i))

def opOf (g : Graph) (i : ℕ) : Option Op := (lookup g i).map Node.op

def isGetAttr (g : Graph) (i : ℕ) : Bool := decide (opOf g i = some Op.getattr)

def usersOf (g : Graph) (i : ℕ) : List ℕ := ((lookup g i).map Node.users).getD []

/-- `check_assumption`: users and inputs are exact inverses and both lists
are duplicate-free. -/
def check_assumption (g : Graph) : Bool :=
  g.all fun n =>
    (n.users.all fun u =>
      match lookup g u with
      | some un => un.inputs.contains n.id
      | none => false)
    && (n.inputs.all fun i =>
      match lookup g i with
      | some inn => inn.users.contains n.id
      | none => false)
    && decide n.users.Nodup && decide n.inputs.Nodup

/-- `remaining_indegrees` initial value: the number of inputs that are not
`get_attr` nodes (Python ints may go negative during the run, hence `ℤ`). -/
def nonAttrIndeg (g : Graph) (n : Node) : ℤ :=
  ((n.inputs.filter (fun j => ! isGetAttr g j)).length : ℤ)

/-- State of Kahn's loop in `topological_partition`. -/
structure KState where
  queue : List ℕ
  indeg : ℕ → ℤ
  partitions : List (List ℕ)
  pindex : ℕ

/-- Initial state: all-zero-indegree non-`get_attr` nodes seed the FIFO
queue in graph order; `partitions = [[]]`, `partition_index = 0`. -/
def initState (g : Graph) : KState :=
  let ind : ℕ → ℤ := fun i =>
    match lookup g i with
    | some n => nonAttrIndeg g n
    | none => 0
  { queue := (g.filter fun n =>
      decide (ind n.id = 0) && ! decide (n.op = Op.getattr)).map Node.id,
    indeg := ind,
    partitions := [[]],
    pindex := 0 }

/-- Append a node id at the end of partition `i`. -/
def appendAt (parts : List (List ℕ)) (i : ℕ) (x : ℕ) : List (List ℕ) :=
  parts.set i ((parts.getD i []) ++ [x])

/-- One user decrement: `remaining_indegrees[user] -= 1`, enqueue on
exactly zero. -/
def decStep (qi : List ℕ × (ℕ → ℤ)) (u : ℕ) : List ℕ × (ℕ → ℤ) :=
  let d := qi.2 u - 1
  (if d = 0 then qi.1 ++ [u] else qi.1,
    fun x => if x = u then d else qi.2 x)

/-- Decrement the remaining indegree of every user of the popped node, in
order, enqueueing each user whose count reaches exactly zero. -/
def decUsers (g : Graph) (node : ℕ) (st : List ℕ × (ℕ → ℤ)) :
    List ℕ × (ℕ → ℤ) :=
  (usersOf g node).foldl decStep st

/-- One iteration of the `while len(queue) > 0` body: pop, open a new
partition when the node is a target, assign the node, decrement users. -/
def kahnStep (g : Graph) (targets : List ℕ) (node : ℕ) (rest : List ℕ)
    (st : KState) : KState :=
  let pp :=
    if node ∈ targets then (st.pindex + 1, st.partitions ++ [[]])
    else (st.pindex, st.partitions)
  let parts2 := appendAt pp.2 pp.1 node
  let qi := decUsers g node (rest, st.indeg)
  { queue := qi.1, indeg := qi.2, partitions := parts2, pindex := pp.1 }

/-- The Kahn loop, fuelled: every node is enqueued at most once (a
strictly decreasing counter crosses zero at most once, and a seeded node
starts at zero), so `2·|g| + 1` iterations always drain the queue and the
fuel branch is never taken on inputs that pass `check_assumption`. -/
def kahnLoop (g : Graph) (targets : List ℕ) : ℕ → KState → KState
  | 0, st => st
  | Nat.succ fuel, st =>
    match st.queue with
    | [] => st
    | node :: rest => kahnLoop g targets fuel (kahnStep g targets node rest st)

/-- `min` over a Python list: error on empty. -/
def minList : List ℕ → Option ℕ
  | [] => none
  | x :: xs => some (xs.foldl min x)

/-- Re-attach a `get_attr` node: find, for each user, the first partition
containing it, insert the node at the front of the minimum such partition;
`min()` of an empty sequence raises. -/
def attachGetAttr (g : Graph) (parts : Except String (List (List ℕ)))
    (n : Node) : Except String (List (List ℕ)) :=
  match parts with
  | Except.error e => Except.error e
  | Except.ok ps =>
    if n.op = Op.getattr then
      let userParts := n.users.filterMap fun u => ps.findIdx? fun p => p.contains u
      match minList userParts with
      | none => Except.error "min() arg is an empty sequence"
      | some pidx => Except.ok (ps.set pidx (n.id :: ps.getD pidx []))
    else Except.ok ps

/-- `topological_partition` of `partitioned_model.py`: assert
`check_assumption`, run Kahn's algorithm with target-triggered partition
breaks, re-attach `get_attr` nodes to the front of their earliest user
partition, and assert that the partitions cover the node set. -/
def topological_partition (g : Graph) (targets : List ℕ) :
    Except String (List (List ℕ)) :=
  if check_assumption g then
    let stf := kahnLoop g targets (2 * g.length + 1) (initState g)
    match stf.queue with
    | _ :: _ => Except.error "kahn loop out of fuel"
    | [] =>
      match g.foldl (attachGetAttr g) (Except.ok stf.partitions) with
      | Except.error e => Except.error e
      | Except.ok ps =>
        if (ps.flatten).toFinset = (g.map Node.id).toFinset then Except.ok ps
        else Except.error "assert union of partitions equals node set"
  else Except.error "assert check_assumption"

/-- Reverse scan of `partition_graph`: the index (in execution order) of
the last subgraph whose `input_names` contain `name`. -/
def lastUserIdx (inputNames : List (List ℕ)) (name : ℕ) : Option ℕ :=
  match (inputNames.reverse).findIdx? (fun l => l.contains name) with
  | some k => some (inputNames.length - 1 - k)
  | none => none

/-- One step of `consumed_names` population: append `name` to the
`consumed_names` of the last subgraph whose `input_names` contain it. -/
def consumeStep (inputNames : List (List ℕ)) (consumed : List (List ℕ))
    (name : ℕ) : List (List ℕ) :=
  match lastUserIdx inputNames name with
  | some j => consumed.set j (consumed.getD j [] ++ [name])
  | none => consumed

/-- `consumed_names` population of `partition_graph` (lines 215-224): for
every distinct input name, append it to the `consumed_names` of the last
subgraph (in execution order) whose `input_names` contain it. -/
def populate_consumed (inputNames : List (List ℕ)) : List (List ℕ) :=
  ((inputNames.flatten).dedup).foldl (consumeStep inputNames)
    (List.replicate inputNames.length [])

/-- A non-first partition: its target at the head, no target in the tail. -/
def TPart (targets : List ℕ) (p : List ℕ) : Prop :=
  ∃ t tl, p = t :: tl ∧ t ∈ targets ∧ ∀ x ∈ tl, x ∉ targets

/-- Shape of the partition list during Kahn's loop: the first partition is
target-free and every later partition starts with its unique target. -/
def ShapeOK (targets : List ℕ) (parts : List (List ℕ)) : Prop :=
  (∀ t ∈ parts.getD 0 [], t ∉ targets) ∧ ∀ p ∈ parts.tail, TPart targets p

/-- `get_attr` nodes carry no `all_input_nodes` (true of `torch.fx`
graphs: a `get_attr` node references a module attribute and has no
inputs). -/
def AttrFree (g : Graph) : Prop :=
  ∀ n ∈ g, n.op = Op.getattr → n.inputs = []

instance AttrFree_dec (g : Graph) : Decidable (AttrFree g) :=
  inferInstanceAs (Decidable (∀ n ∈ g, n.op = Op.getattr → n.inputs = []))

/-- Loop invariant of Kahn's algorithm in `topological_partition`. -/
structure KInv (g : Graph) (targets : List ℕ) (st : KState) : Prop where
  qn : st.queue.Nodup
  pn : st.partitions.flatten.Nodup
  disj : ∀ u ∈ st.queue, u ∉ st.partitions.flatten
  counter : ∀ u : ℕ, u ∈ st.queue ∨ u ∈ st.partitions.flatten → st.indeg u ≤ 0
  na : ∀ u : ℕ, u ∈ st.queue ∨ u ∈ st.partitions.flatten →
    isGetAttr g u = false
  shape : ∃ ps cur, st.partitions = ps ++ [cur] ∧ st.pindex = ps.length ∧
    ShapeOK targets st.partitions

/-- Relation between the partition list before and after `get_attr`
re-attachment: every partition only gains a (possibly empty) prefix of
`get_attr` node ids. -/
def InsOnly (g : Graph) (base ps : List (List ℕ)) : Prop :=
  ps.length = base.length ∧
  ∀ k : ℕ, ∃ ins : List ℕ, ps.getD k [] = ins ++ base.getD k [] ∧
    ∀ x ∈ ins, isGetAttr g x = true

def exGraphC6 : Graph :=
  [⟨0, Op.placeholder, [], [1]⟩, ⟨1, Op.callmod, [0, 3], [2]⟩,
   ⟨2, Op.callmod, [1], [3, 4]⟩, ⟨3, Op.getattr, [2], [1]⟩,
   ⟨4, Op.callmod, [2], []⟩]

def exGraphC7 : Graph :=
  [⟨0, Op.placeholder, [], [1]⟩, ⟨1, Op.callmod, [0], [3]⟩,
   ⟨2, Op.getattr, [], [3]⟩, ⟨3, Op.callmod, [1, 2], []⟩]

def exGraphOk : Graph :=
  [⟨0, Op.placeholder, [], [1]⟩, ⟨1, Op.callmod, [0, 2], [3]⟩,
   ⟨2, Op.getattr, [], [1]⟩, ⟨3, Op.output, [1], []⟩]

/-- Point update of an evaluation environment. -/
def updateEnv (env : ℕ → Option ℕ) (i : ℕ) (v : Option ℕ) : ℕ → Option ℕ :=
  fun j => if j = i then v else env j

/-- Value of one `torch.fx` node under abstract per-node semantics `sem`:
a placeholder reads the forward inputs, a `get_attr` yields its attribute
(a constant), a `call_module` applies its module to the values of its
`all_input_nodes`, and the output node returns the value of its argument. -/
def nodeValue (sem : ℕ → List ℕ → ℕ) (inputs : ℕ → Option ℕ)
    (env : ℕ → Option ℕ) (n : Node) : Option ℕ :=
  match n.op with
  | Op.placeholder => inputs n.id
  | Op.getattr => some (sem n.id [])
  | Op.callmod => (n.inputs.mapM env).map (sem n.id)
  | Op.output => (n.inputs.head?).bind env

/-- Run all nodes of a graph in (topological) list order. -/
def runNodes (sem : ℕ → List ℕ → ℕ) (inputs : ℕ → Option ℕ) (g : Graph) :
    ℕ → Option ℕ :=
  g.foldl (fun env n => updateEnv env n.id (nodeValue sem inputs env n))
    (fun _ => none)

/-- Single unpartitioned forward pass: the value of the output node. -/
def model_forward (sem : ℕ → List ℕ → ℕ) (g : Graph)
    (inputs : ℕ → Option ℕ) : Option ℕ :=
  match g.find? (fun n => decide (n.op = Op.output)) with
  | some n => runNodes sem inputs g n.id
  | none => none

/-- `input_names` of the subgraph built from partition `p` by
`partition_graph`: inputs of partition nodes that live outside the
partition (turned into fresh placeholders), together with original
placeholder nodes contained in the partition. -/
def inputNamesOf (g : Graph) (p : List ℕ) : List ℕ :=
  (((p.flatMap fun i => ((lookup g i).map Node.inputs).getD []).filter
      fun i => ! p.contains i).dedup) ++
    p.filter fun i => decide (opOf g i = some Op.placeholder)

/-- Run the subgraph of partition `p` on the `intermediates` cache, as the
generated `forward_function(model, **inputs)` does: gather the declared
inputs (a missing name raises `KeyError`), evaluate the copied nodes in
partition order, and return either the original output node's value (when
the partition holds it) or the dictionary of values needed outside the
partition. -/
def subgraphRun (sem : ℕ → List ℕ → ℕ) (g : Graph) (cache : ℕ → Option ℕ)
    (p : List ℕ) : Option (Sum (List (ℕ × ℕ)) ℕ) :=
  match (inputNamesOf g p).mapM cache with
  | none => none
  | some _ =>
    let env0 : ℕ → Option ℕ := fun i =>
      if (inputNamesOf g p).contains i then cache i else none
    let env := p.foldl (fun e i =>
      match lookup g i with
      | some n => updateEnv e n.id (nodeValue sem env0 e n)
      | none => e) env0
    match p.find? (fun i => decide (opOf g i = some Op.output)) with
    | some oid => (env oid).map Sum.inr
    | none =>
      ((p.filter fun i => (usersOf g i).any fun u => ! p.contains u).mapM
        fun i => (env i).map fun v => (i, v)).map Sum.inl

/-- `intermediates.update(subgraph_output)` for a dictionary result. -/
def updCache (cache : ℕ → Option ℕ) (d : List (ℕ × ℕ)) : ℕ → Option ℕ :=
  fun i =>
    match d.find? fun pr => decide (pr.1 = i) with
    | some pr => some pr.2
    | none => cache i

/-- `del intermediates[name]` for every consumed name. -/
def delNames (cache : ℕ → Option ℕ) (names : List ℕ) : ℕ → Option ℕ :=
  fun i => if names.contains i then none else cache i

/-- The loop of `PartitionedModel.forward` over `(partition,
consumed_names)` pairs: every non-final subgraph's output is merged into
the cache (a model-output object carries no node names) and its consumed
names deleted; the final subgraph's output is returned. -/
def pfLoop (sem : ℕ → List ℕ → ℕ) (g : Graph) :
    List (List ℕ × List ℕ) → (ℕ → Option ℕ) →
    Option (Sum (List (ℕ × ℕ)) ℕ)
  | [], _ => none
  | [pc], cache => subgraphRun sem g cache pc.1
  | pc :: pc2 :: rest, cache =>
    match subgraphRun sem g cache pc.1 with
    | none => none
    | some r =>
      let cache2 := match r with
        | Sum.inl d => updCache cache d
        | Sum.inr _ => cache
      pfLoop sem g (pc2 :: rest) (delNames cache2 pc.2)

/-- `PartitionedModel.forward`: replay the subgraphs in order, with
`consumed_names` as populated by `partition_graph`. -/
def partitioned_forward (sem : ℕ → List ℕ → ℕ) (g : Graph)
    (ps : List (List ℕ)) (kwargs : ℕ → Option ℕ) :
    Option (Sum (List (ℕ × ℕ)) ℕ) :=
  pfLoop sem g (ps.zip (populate_consumed (ps.map (inputNamesOf g)))) kwargs

/-- C1 counterexample graph: input 0 feeds a chain through module 1 into
the sequential target 2 whose result is unused, and the output node 3
returns the input directly (node and user order as produced by tracing:
the output node is created last). -/
def exC1 : Graph :=
  [⟨0, Op.placeholder, [], [1, 3]⟩, ⟨1, Op.callmod, [0], [2]⟩,
   ⟨2, Op.callmod, [1], []⟩, ⟨3, Op.output, [0], []⟩]

def semC1 : ℕ → List ℕ → ℕ := fun i vs => i + vs.sum

def kwC1 : ℕ → Option ℕ := fun i => if i = 0 then some 42 else none

end Partition

namespace Hessian

lemma gram_append {k : ℕ} (a b : List (Row k)) :
    gram (a ++ b) = gram a + gram b := by
  simp [gram, List.map_append, List.sum_append]

lemma gram_nil {k : ℕ} : gram ([] : List (Row k)) = 0 := rfl

lemma allRows_cons {k : ℕ} (c : List (List (Row k))) cs :
    allRows (c :: cs) = c.flatten ++ allRows cs := by
  simp [allRows]

/-- Invariant of the accumulator: once `n` samples with combined Gram
matrix `G` have been absorbed, the state is `((2/n) • G, n)`, and folding
further chunks preserves this shape. -/
lemma accumulate_invariant {k : ℕ} (cs : List (List (List (Row k))))
    (G : Matrix (Fin k) (Fin k) ℚ) (n : ℕ) (hn : 0 < n) :
    cs.foldl (fun st c => add_batch st (Act.r3 c))
        (((2 : ℚ) / (n : ℚ)) • G, n) =
      (((2 : ℚ) / ((n : ℚ) + (cs.flatten.length : ℚ))) •
          (G + gram (allRows cs)),
        n + cs.flatten.length) := by
  induction cs generalizing G n with
  | nil =>
      refine Prod.ext ?_ rfl
      show ((2 : ℚ) / (n : ℚ)) • G = _
      simp [allRows, gram_nil]
  | cons c cs ih =>
      have hnq : (0 : ℚ) < (n : ℚ) := by exact_mod_cast hn
      have hm : (0 : ℚ) < (n : ℚ) + (c.length : ℚ) := by
        have h2 : (0 : ℚ) ≤ (c.length : ℚ) := by positivity
        linarith
      have hstep :
          add_batch (((2 : ℚ) / (n : ℚ)) • G, n) (Act.r3 c) =
            (((2 : ℚ) / (((n + c.length : ℕ) : ℚ))) • (G + gram c.flatten),
              n + c.length) := by
        simp only [add_batch, Act.unsq]
        refine Prod.ext ?_ rfl
        show ((n : ℚ) / ((n : ℚ) + (c.length : ℚ))) •
              (((2 : ℚ) / (n : ℚ)) • G)
            + ((2 : ℚ) / ((n : ℚ) + (c.length : ℚ))) • gram c.flatten
            = ((2 : ℚ) / (((n + c.length : ℕ) : ℚ))) • (G + gram c.flatten)
        ext i j
        push_cast
        simp only [Matrix.add_apply, Matrix.smul_apply, smul_eq_mul]
        field_simp
        ring
      rw [List.foldl_cons, hstep,
        ih (G + gram c.flatten) (n + c.length)
          (Nat.lt_of_lt_of_le hn (Nat.le_add_right n c.length))]
      refine Prod.ext ?_ ?_
      · show ((2 : ℚ) / (((n + c.length : ℕ) : ℚ) + (cs.flatten.length : ℚ))) •
            (G + gram c.flatten + gram (allRows cs)) = _
        rw [allRows_cons, gram_append, ← add_assoc]
        have hlen : ((c :: cs).flatten.length : ℚ) =
            (c.length : ℚ) + (cs.flatten.length : ℚ) := by
          push_cast [List.flatten_cons, List.length_append]
          ring
        rw [hlen]
        push_cast
        rw [add_assoc]
      · show n + c.length + cs.flatten.length = n + (c :: cs).flatten.length
        simp [List.flatten_cons, List.length_append]
        omega

/-- Closed form of the accumulator run: starting from `(H,n) = (0,0)`,
absorbing any nonempty-chunk partition of a sample list yields exactly
`((2/N) • gram(all rows), N)` with `N` the total number of samples. -/
lemma accumulate_eq {k : ℕ} (cs : List (List (List (Row k))))
    (hne : ∀ c ∈ cs, c ≠ []) :
    accumulate cs =
      (((2 : ℚ) / (cs.flatten.length : ℚ)) • gram (allRows cs),
        cs.flatten.length) := by
  cases cs with
  | nil => simp [accumulate, allRows, gram_nil]
  | cons c cs =>
      have hc : c ≠ [] := hne c (List.mem_cons_self c cs)
      have hm : 0 < c.length := List.length_pos.mpr hc
      have hstep : add_batch (0, 0) (Act.r3 c) =
          (((2 : ℚ) / (c.length : ℚ)) • gram c.flatten, c.length) := by
        simp [add_batch, Act.unsq]
      unfold accumulate
      rw [List.foldl_cons, hstep]
      have hinv := accumulate_invariant cs (gram c.flatten) c.length hm
      rw [hinv]
      refine Prod.ext ?_ ?_
      · show ((2 : ℚ) / ((c.length : ℚ) + (cs.flatten.length : ℚ))) •
            (gram c.flatten + gram (allRows cs)) = _
        rw [allRows_cons, gram_append]
        have hlen : ((c :: cs).flatten.length : ℚ) =
            (c.length : ℚ) + (cs.flatten.length : ℚ) := by
          push_cast [List.flatten_cons, List.length_append]
          ring
        rw [hlen]
      · show c.length + cs.flatten.length = (c :: cs).flatten.length
        simp [List.flatten_cons, List.length_append]

/-- C2.  Folding `add_batch` from `(H = 0, nsamples = 0)` over any two
ways of chunking the same fixed sequence of calibration samples into
(nonempty) batches produces the same final Hessian state: the result
depends only on the flattened sample sequence. -/
theorem add_batch_chunking_invariant {k : ℕ}
    (cs1 cs2 : List (List (List (Row k))))
    (hflat : cs1.flatten = cs2.flatten)
    (h1 : ∀ c ∈ cs1, c ≠ []) (h2 : ∀ c ∈ cs2, c ≠ []) :
    accumulate cs1 = accumulate cs2 := by
  rw [accumulate_eq cs1 h1, accumulate_eq cs2 h2]
  have hrows : allRows cs1 = allRows cs2 := by
    simp only [allRows, ← List.flatten_flatten, hflat]
  rw [hflat, hrows]

/-- Witness for C2: chunking three one-sample batches `[A, B, C]` as
`[[A], [B], [C]]` or as `[[A], [B, C]]` gives the same accumulator
state, at a concrete sample list over one feature. -/
theorem add_batch_chunking_invariant_witness :
    accumulate [[[(fun _ => (1 : ℚ))]], [[(fun _ => (2 : ℚ))]],
        [[(fun _ => (3 : ℚ))]]] =
      accumulate (k := 1) [[[(fun _ => (1 : ℚ))]],
        [[(fun _ => (2 : ℚ))], [(fun _ => (3 : ℚ))]]] := by
  apply add_batch_chunking_invariant
  · rfl
  · intro c hc
    fin_cases hc <;> simp
  · intro c hc
    fin_cases hc <;> simp

/-- C10.  A rank-2 input activation passed to `add_batch` on a Linear or
Conv1D module is unsqueezed to a leading batch dimension of size 1, so
`nsamples` advances by exactly 1, regardless of how many sequence
positions (rows) the tensor contains. -/
theorem add_batch_rank2_counts_one_sample {k : ℕ}
    (H : Matrix (Fin k) (Fin k) ℚ) (n : ℕ) (rows : List (Row k)) :
    (add_batch (H, n) (Act.r2 rows)).2 = n + 1 := rfl

end Hessian

namespace GPTQ

open Hessian

lemma gram_apply {k : ℕ} (rows : List (Hessian.Row k)) (i j : Fin k) :
    Hessian.gram rows i j = (rows.map (fun v => v i * v j)).sum := by
  induction rows with
  | nil => rfl
  | cons v vs ih =>
      simp only [Hessian.gram, List.map_cons, List.sum_cons, Matrix.add_apply]
      rw [← Hessian.gram]
      rw [ih]
      rfl

lemma sum_sq_zero {k : ℕ} (rows : List (Hessian.Row k)) (dead : Fin k)
    (h : (rows.map (fun v => v dead * v dead)).sum = 0) :
    ∀ v ∈ rows, v dead = 0 := by
  induction rows with
  | nil => intro v hv; cases hv
  | cons w ws ih =>
      simp only [List.map_cons, List.sum_cons] at h
      have h1 : (0 : ℚ) ≤ w dead * w dead := mul_self_nonneg _
      have h2 : (0 : ℚ) ≤ (ws.map (fun v => v dead * v dead)).sum := by
        apply List.sum_nonneg
        intro x hx
        obtain ⟨v, _, rfl⟩ := List.mem_map.mp hx
        exact mul_self_nonneg _
      have hz := (add_eq_zero_iff_of_nonneg h1 h2).mp h
      intro v hv
      rcases List.mem_cons.mp hv with rfl | hv2
      · exact mul_self_eq_zero.mp hz.1
      · exact ih hz.2 v hv2

lemma gram_dead_col {k : ℕ} (rows : List (Hessian.Row k)) (dead : Fin k)
    (h : Hessian.gram rows dead dead = 0) (i : Fin k) :
    Hessian.gram rows i dead = 0 ∧ Hessian.gram rows dead i = 0 := by
  rw [gram_apply] at h
  have hz := sum_sq_zero rows dead h
  constructor
  · rw [gram_apply]
    apply List.sum_eq_zero
    intro x hx
    obtain ⟨v, hv, rfl⟩ := List.mem_map.mp hx
    rw [hz v hv, mul_zero]
  · rw [gram_apply]
    apply List.sum_eq_zero
    intro x hx
    obtain ⟨v, hv, rfl⟩ := List.mem_map.mp hx
    rw [hz v hv, zero_mul]

lemma compute_hessian_dead_col {c : ℕ} (inp : Hessian.Act c) (dead : Fin c)
    (hdead : compute_hessian inp dead dead = 0) (i : Fin c) :
    compute_hessian inp i dead = 0 ∧ compute_hessian inp dead i = 0 := by
  by_cases hs : ((2 : ℚ) / ((inp.unsq.length : ℕ) : ℚ)) = 0
  · constructor <;>
      simp [compute_hessian, Matrix.smul_apply, hs]
  · have hg : Hessian.gram inp.unsq.flatten dead dead = 0 := by
      have := hdead
      simp only [compute_hessian, Matrix.smul_apply, smul_eq_mul] at this
      exact (mul_eq_zero.mp this).resolve_left hs
    have hcol := gram_dead_col inp.unsq.flatten dead hg i
    constructor <;>
      simp [compute_hessian, Matrix.smul_apply, hcol.1, hcol.2]

lemma compute_hessian_diag_nonneg {c : ℕ} (inp : Hessian.Act c) (j : Fin c) :
    0 ≤ compute_hessian inp j j := by
  simp only [compute_hessian, Matrix.smul_apply, smul_eq_mul]
  apply mul_nonneg
  · positivity
  · rw [gram_apply]
    apply List.sum_nonneg
    intro x hx
    obtain ⟨v, _, rfl⟩ := List.mem_map.mp hx
    exact mul_self_nonneg _

lemma maskDeadH_offdiag {c : ℕ} (H : Mat c c) {i j : Fin c} (hij : i ≠ j) :
    maskDeadH H i j = H i j := by
  simp only [maskDeadH, Matrix.of_apply]
  rw [if_neg]
  rintro ⟨h1, _⟩
  exact hij h1

lemma maskDeadH_diag_dead {c : ℕ} (H : Mat c c) {j : Fin c} (hj : H j j = 0) :
    maskDeadH H j j = 1 := by
  simp [maskDeadH, hj]

lemma maskDeadH_diag_nonneg {c : ℕ} (H : Mat c c) (j : Fin c)
    (h : 0 ≤ H j j) : 0 ≤ maskDeadH H j j := by
  simp only [maskDeadH, Matrix.of_apply]
  split
  · norm_num
  · exact h

/-- Dead-column structure of the damped masked Hessian: its dead row and
column vanish off the diagonal, and the dead diagonal entry is
`1 + damp`. -/
lemma dampedH_dead_structure {c : ℕ} (H : Mat c c) (percdamp : ℚ)
    (dead : Fin c)
    (hdd : H dead dead = 0)
    (hcol : ∀ i : Fin c, H i dead = 0 ∧ H dead i = 0) :
    (∀ j : Fin c, j ≠ dead →
        dampedH (maskDeadH H) percdamp j dead = 0 ∧
        dampedH (maskDeadH H) percdamp dead j = 0) ∧
      dampedH (maskDeadH H) percdamp dead dead =
        1 + percdamp * meanDiag (maskDeadH H) := by
  constructor
  · intro j hj
    constructor
    · simp only [dampedH, Matrix.add_apply, Matrix.smul_apply, smul_eq_mul]
      rw [maskDeadH_offdiag H hj, (hcol j).1, Matrix.one_apply_ne hj]
      ring
    · simp only [dampedH, Matrix.add_apply, Matrix.smul_apply, smul_eq_mul]
      rw [maskDeadH_offdiag H (Ne.symm hj), (hcol j).2,
        Matrix.one_apply_ne (Ne.symm hj)]
      ring
  · simp only [dampedH, Matrix.add_apply, Matrix.smul_apply, smul_eq_mul]
    rw [maskDeadH_diag_dead H hdd, Matrix.one_apply_eq]
    ring

/-- The top leading principal minor is the determinant. -/
lemma isPD_det_pos {c : ℕ} (hc : 0 < c) (A : Mat c c) (h : isPD A) :
    0 < A.det := by
  have hk : c - 1 < c := Nat.sub_lt hc one_pos
  have hlast := h ⟨c - 1, hk⟩
  unfold leadingMinor at hlast
  have he : c - 1 + 1 = c := Nat.succ_pred_eq_of_pos hc
  have hfe : (fun i : Fin ((⟨c - 1, hk⟩ : Fin c).val + 1) =>
      (⟨i.val, Nat.lt_of_lt_of_le i.isLt (⟨c - 1, hk⟩ : Fin c).isLt⟩ : Fin c)) =
      ⇑(finCongr he) := by
    funext i
    apply Fin.ext
    rfl
  rw [hfe, Matrix.det_submatrix_equiv_self] at hlast
  exact hlast

lemma matInv_eq_inv {n : ℕ} (A : Matrix (Fin n) (Fin n) ℚ) :
    matInv A = A⁻¹ := by
  rw [Matrix.inv_def, matInv, Ring.inverse_eq_inv]

/-- An isolated coordinate of an invertible matrix stays isolated in the
inverse. -/
lemma matInv_dead_structure {c : ℕ} (D : Mat c c) (dead : Fin c)
    (hdet : D.det ≠ 0)
    (hstruct : ∀ j : Fin c, j ≠ dead → D j dead = 0 ∧ D dead j = 0)
    (hdd : D dead dead ≠ 0) :
    ∀ j : Fin c, j ≠ dead → matInv D j dead = 0 ∧ matInv D dead j = 0 := by
  have hu : IsUnit D.det := isUnit_iff_ne_zero.mpr hdet
  have h1 : matInv D * D = 1 := by
    rw [matInv_eq_inv]
    exact Matrix.nonsing_inv_mul D hu
  have h2 : D * matInv D = 1 := by
    rw [matInv_eq_inv]
    exact Matrix.mul_nonsing_inv D hu
  intro j hj
  constructor
  · have hrow := congrArg (fun M => M j dead) h1
    simp only [Matrix.mul_apply, Matrix.one_apply_ne hj] at hrow
    rw [Finset.sum_eq_single dead
      (fun k _ hk => by rw [(hstruct k hk).1, mul_zero])
      (fun hd => absurd (Finset.mem_univ dead) hd)] at hrow
    exact (mul_eq_zero.mp hrow).resolve_right hdd
  · have hrow := congrArg (fun M => M dead j) h2
    simp only [Matrix.mul_apply, Matrix.one_apply_ne (Ne.symm hj)] at hrow
    rw [Finset.sum_eq_single dead
      (fun k _ hk => by rw [(hstruct k hk).2, zero_mul])
      (fun hd => absurd (Finset.mem_univ dead) hd)] at hrow
    exact (mul_eq_zero.mp hrow).resolve_left hdd

lemma cholUpperQ_eq_cholPrefix {n : ℕ} (A : Matrix (Fin n) (Fin n) ℚ) :
    cholUpperQ A = cholPrefix A n := rfl

lemma cholPrefix_succ {n : ℕ} (A : Matrix (Fin n) (Fin n) ℚ) (m : ℕ) :
    cholPrefix A (m + 1) = cholStep A (cholPrefix A m) m := by
  unfold cholPrefix
  rw [List.range_succ, List.foldl_append, List.foldl_cons, List.foldl_nil]

lemma cholPrefix_rows_zero {n : ℕ} (A : Matrix (Fin n) (Fin n) ℚ) (m : ℕ)
    (a : Fin n) (ham : m ≤ (a : ℕ)) (b : Fin n) :
    cholPrefix A m a b = 0 := by
  induction m with
  | zero => simp [cholPrefix]
  | succ m ih =>
      rw [cholPrefix_succ]
      simp only [cholStep, Matrix.of_apply]
      rw [if_neg (by omega)]
      exact ih (by omega) 

/-- Column structure of the Cholesky factor: a coordinate whose column of
the input vanishes off the diagonal gets a vanishing column above the
diagonal in the factor too (rows below vanish by triangularity). -/
lemma cholPrefix_col_dead {n : ℕ} (A : Matrix (Fin n) (Fin n) ℚ)
    (dead : Fin n) (hA : ∀ j : Fin n, j ≠ dead → A j dead = 0) (m : ℕ) :
    ∀ p : Fin n, (p : ℕ) < m → p ≠ dead → cholPrefix A m p dead = 0 := by
  induction m with
  | zero => intro p hp; omega
  | succ m ih =>
      intro p hp hpd
      rw [cholPrefix_succ]
      by_cases hpm : (p : ℕ) = m
      · have hdm : (dead : ℕ) ≠ m := by
          intro hcon
          exact hpd (Fin.ext (hpm.trans hcon.symm))
        simp only [cholStep, Matrix.of_apply, if_pos hpm]
        by_cases hdlt : (dead : ℕ) < m
        · rw [if_pos hdlt]
        · rw [if_neg hdlt, if_neg hdm]
          have hm : m < n := hpm ▸ p.isLt
          have hAzero : Hget A m (dead : ℕ) = 0 := by
            unfold Hget
            rw [dif_pos hm, dif_pos dead.isLt]
            refine hA ⟨m, hm⟩ ?_
            intro hcon
            exact hdm (congrArg Fin.val hcon).symm
          have hsum : ∀ q ∈ Finset.range m,
              Hget (cholPrefix A m) q m * Hget (cholPrefix A m) q (dead : ℕ) = 0 := by
            intro q hq
            have hqm : q < m := Finset.mem_range.mp hq
            have hqn : q < n := lt_trans hqm hm
            have hUq : Hget (cholPrefix A m) q (dead : ℕ) = 0 := by
              unfold Hget
              rw [dif_pos hqn, dif_pos dead.isLt]
              refine ih ⟨q, hqn⟩ hqm ?_
              intro hcon
              have : (dead : ℕ) = q := (congrArg Fin.val hcon).symm
              omega
            rw [hUq, mul_zero]
          rw [Finset.sum_eq_zero hsum]
          rw [hAzero]
          simp
      · have hplt : (p : ℕ) < m := by omega
        simp only [cholStep, Matrix.of_apply]
        rw [if_neg hpm]
        exact ih p hplt hpd

/-- `ℕ`-indexed version used by the block loop: every entry of the dead
column of `Hinv` off the diagonal is zero. -/
lemma cholUpperQ_col_dead {n : ℕ} (A : Matrix (Fin n) (Fin n) ℚ)
    (dead : Fin n) (hA : ∀ j : Fin n, j ≠ dead → A j dead = 0) :
    ∀ p : ℕ, p ≠ (dead : ℕ) → Hget (cholUpperQ A) p (dead : ℕ) = 0 := by
  intro p hp
  unfold Hget
  by_cases hpn : p < n
  · rw [dif_pos hpn, dif_pos dead.isLt]
    rw [cholUpperQ_eq_cholPrefix]
    have hfin : (⟨(dead : ℕ), dead.isLt⟩ : Fin n) = dead := Fin.ext rfl
    rw [hfin]
    refine cholPrefix_col_dead A dead hA n ⟨p, hpn⟩ hpn ?_
    intro hcon
    exact hp (congrArg Fin.val hcon)
  · rw [dif_neg hpn]

/-- Explicit form of one `qwInner` step. -/
lemma qwInner_proj {r c : ℕ} (Hinv : Mat c c) (Worig : Mat r c)
    (qf : ℕ → (Fin r → ℚ) → Fin r → ℚ) (mask : Option (Mat r c))
    (i1 i2 : ℕ) (st : Mat r c × Mat r c × Mat r c × Mat r c) (i : ℕ) :
    qwInner Hinv Worig qf mask i1 i2 st i =
      ((Matrix.of fun a b =>
          if i1 + i ≤ (b : ℕ) ∧ (b : ℕ) < i2 then
            st.1 a b -
              (colGet Worig i a - qf (i1 + i) (colGet st.1 (i1 + i)) a) /
                  Hget Hinv (i1 + i) (i1 + i) *
                Hget Hinv (i1 + i) (b : ℕ) * maskAt mask a b
          else st.1 a b : Mat r c),
        colSet st.2.1 (i1 + i) (qf (i1 + i) (colGet st.1 (i1 + i))),
        colSet st.2.2.1 (i1 + i)
          (fun a => (colGet Worig i a - qf (i1 + i) (colGet st.1 (i1 + i)) a) /
            Hget Hinv (i1 + i) (i1 + i)),
        colSet st.2.2.2 (i1 + i)
          (fun a =>
            (colGet Worig i a - qf (i1 + i) (colGet st.1 (i1 + i)) a) ^ 2 /
              Hget Hinv (i1 + i) (i1 + i) ^ 2)) := rfl

/-- Inner-loop invariant for a dead column inside the current block: the
quantized block `Q1` keeps a zero dead column, and until the dead column
is reached the working clone `W1` keeps a zero dead column as well. -/
lemma qwInner_fold_dead {r c : ℕ} (Hinv : Mat c c) (Worig : Mat r c)
    (qf : ℕ → (Fin r → ℚ) → Fin r → ℚ) (mask : Option (Mat r c))
    (i1 i2 : ℕ) (dead : Fin c)
    (hdi2 : (dead : ℕ) < i2)
    (hU : ∀ p : ℕ, p ≠ (dead : ℕ) → Hget Hinv p (dead : ℕ) = 0)
    (hq : qf (dead : ℕ) (fun _ => 0) = fun _ => 0)
    (W0 : Mat r c) (hW0 : ∀ a, W0 a dead = 0) (t : ℕ) :
    (∀ a, ((List.range t).foldl (qwInner Hinv Worig qf mask i1 i2)
        (W0, 0, 0, 0)).2.1 a dead = 0)
    ∧ (i1 + t ≤ (dead : ℕ) →
        ∀ a, ((List.range t).foldl (qwInner Hinv Worig qf mask i1 i2)
          (W0, 0, 0, 0)).1 a dead = 0) := by
  induction t with
  | zero =>
      constructor
      · intro a
        rfl
      · intro _ a
        exact hW0 a
  | succ t ih =>
      rw [List.range_succ, List.foldl_append, List.foldl_cons, List.foldl_nil,
        qwInner_proj]
      set st := (List.range t).foldl (qwInner Hinv Worig qf mask i1 i2)
        (W0, 0, 0, 0) with hstdef
      rcases Nat.lt_trichotomy (i1 + t) (dead : ℕ) with hlt | heq | hgt
      · constructor
        · intro a
          dsimp only
          simp only [colSet, Matrix.of_apply]
          rw [if_neg (by omega)]
          exact ih.1 a
        · intro _ a
          dsimp only
          simp only [Matrix.of_apply]
          rw [if_pos ⟨by omega, hdi2⟩]
          rw [hU (i1 + t) (by omega)]
          rw [ih.2 (by omega) a]
          ring
      · constructor
        · intro a
          dsimp only
          simp only [colSet, Matrix.of_apply]
          rw [if_pos heq.symm]
          have hcg : colGet st.1 (i1 + t) = fun _ => 0 := by
            funext x
            simp only [colGet]
            rw [dif_pos (heq ▸ dead.isLt)]
            have hfin : (⟨i1 + t, heq ▸ dead.isLt⟩ : Fin c) = dead :=
              Fin.ext heq
            rw [hfin]
            exact ih.2 (le_of_eq heq) x
          rw [hcg, heq, hq]
        · intro hcon
          exact absurd hcon (by omega)
      · constructor
        · intro a
          dsimp only
          simp only [colSet, Matrix.of_apply]
          rw [if_neg (by omega)]
          exact ih.1 a
        · intro hcon
          exact absurd hcon (by omega)

/-- A single `qwBlock` step keeps a dead column of the working weight at
zero, whatever the block bounds are. -/
lemma qwBlock_dead {r c : ℕ} (Hinv : Mat c c) (Worig : Mat r c)
    (qf : ℕ → (Fin r → ℚ) → Fin r → ℚ) (mask : Option (Mat r c))
    (blocksize : ℕ) (dead : Fin c)
    (hU : ∀ p : ℕ, p ≠ (dead : ℕ) → Hget Hinv p (dead : ℕ) = 0)
    (hq : qf (dead : ℕ) (fun _ => 0) = fun _ => 0)
    (st : Mat r c × (Fin r → ℚ)) (i1 : ℕ)
    (hst : ∀ a, st.1 a dead = 0) :
    ∀ a, (qwBlock Hinv Worig qf mask blocksize st i1).1 a dead = 0 := by
  intro a
  unfold qwBlock
  dsimp only
  simp only [Matrix.of_apply]
  by_cases h1 : i1 ≤ (dead : ℕ) ∧ (dead : ℕ) < min (i1 + blocksize) c
  · rw [if_pos h1]
    exact (qwInner_fold_dead Hinv Worig qf mask i1 (min (i1 + blocksize) c)
      dead h1.2 hU hq st.1 hst (min (i1 + blocksize) c - i1)).1 a
  · rw [if_neg h1]
    by_cases h2 : min (i1 + blocksize) c ≤ (dead : ℕ)
    · rw [if_pos h2]
      have hsum : (∑ p ∈ Finset.range (min (i1 + blocksize) c - i1),
          entryN ((List.range (min (i1 + blocksize) c - i1)).foldl
            (qwInner Hinv Worig qf mask i1 (min (i1 + blocksize) c))
            (st.1, 0, 0, 0)).2.2.1 a (i1 + p) *
          Hget Hinv (i1 + p) (dead : ℕ)) = 0 := by
        apply Finset.sum_eq_zero
        intro p hp
        have hpr := Finset.mem_range.mp hp
        rw [hU (i1 + p) (by omega), mul_zero]
      rw [hsum, zero_mul, sub_zero]
      exact hst a
    · rw [if_neg h2]
      exact hst a

/-- Folding any list of block starts keeps a dead column at zero. -/
lemma qwLoop_fold_dead {r c : ℕ} (Hinv : Mat c c) (Worig : Mat r c)
    (qf : ℕ → (Fin r → ℚ) → Fin r → ℚ) (mask : Option (Mat r c))
    (blocksize : ℕ) (dead : Fin c)
    (hU : ∀ p : ℕ, p ≠ (dead : ℕ) → Hget Hinv p (dead : ℕ) = 0)
    (hq : qf (dead : ℕ) (fun _ => 0) = fun _ => 0)
    (l : List ℕ) :
    ∀ st : Mat r c × (Fin r → ℚ), (∀ a, st.1 a dead = 0) →
      ∀ a, (l.foldl (qwBlock Hinv Worig qf mask blocksize) st).1 a dead = 0 := by
  induction l with
  | nil =>
      intro st hst a
      exact hst a
  | cons i1 l ih =>
      intro st hst a
      rw [List.foldl_cons]
      exact ih _ (qwBlock_dead Hinv Worig qf mask blocksize dead hU hq st i1 hst) a

/-- Reduction of `quantize_weight` when activation ordering is disabled
and the damped masked Hessian is positive-definite. -/
lemma quantize_weight_none_eq {r c : ℕ} {σ : Type} (observer : Mat r c → σ)
    (qf : ℕ → (Fin r → ℚ) → Fin r → ℚ) (strategy : QStrategy)
    (group_size : ℕ) (sparsityThreshold : ℚ) (weight : Mat r c)
    (inp : Hessian.Act c) (blocksize : ℕ) (percdamp : ℚ)
    (weight_original : Mat r c)
    (hpd : isPD (dampedH (maskDeadH (compute_hessian inp)) percdamp)) :
    quantize_weight observer qf strategy none group_size sparsityThreshold
        weight inp blocksize percdamp weight_original =
      Except.ok
        (∑ a, (qwLoop
            (cholUpperQ (matInv (dampedH (maskDeadH (compute_hessian inp)) percdamp)))
            weight_original qf
            (if sparsityThreshold ≤ sparsity weight then
              some (Matrix.of fun a b => if weight a b = 0 then (0 : ℚ) else 1)
            else none) blocksize (maskDeadW (compute_hessian inp) weight)).2 a,
          (qwLoop
            (cholUpperQ (matInv (dampedH (maskDeadH (compute_hessian inp)) percdamp)))
            weight_original qf
            (if sparsityThreshold ≤ sparsity weight then
              some (Matrix.of fun a b => if weight a b = 0 then (0 : ℚ) else 1)
            else none) blocksize (maskDeadW (compute_hessian inp) weight)).1,
          observer weight, none) := by
  cases strategy <;>
    (simp only [quantize_weight, dispatch, invert_hessian]; rw [if_pos hpd]; rfl)

/-- C5.  Dead-column safety of `quantize_weight`: if some column's
Hessian diagonal entry is exactly zero, the masking step forces that
diagonal entry to 1 and the returned weight has that column equal to zero
in its original position (activation ordering disabled, so no column is
moved), for any strategy, block size, sparsity mask and weight.  The
hypotheses record the contracts of the external collaborators: the opaque
`fake_quantize` maps the zero column to zero, the dampening fraction is
nonnegative, and the damped masked Hessian is positive-definite (otherwise
the factorization raises instead, cf. the Cholesky-failure theorem).  In
exact arithmetic every returned entry is a well-defined rational, so the
dead column introduces no NaN/Inf anywhere. -/
theorem quantize_weight_dead_column {r c : ℕ} {σ : Type}
    (observer : Mat r c → σ) (qf : ℕ → (Fin r → ℚ) → Fin r → ℚ)
    (strategy : QStrategy) (group_size : ℕ) (sparsityThreshold : ℚ)
    (weight : Mat r c) (inp : Hessian.Act c) (blocksize : ℕ) (percdamp : ℚ)
    (weight_original : Mat r c) (dead : Fin c)
    (hdead : compute_hessian inp dead dead = 0)
    (hq : qf (dead : ℕ) (fun _ => 0) = fun _ => 0)
    (hdamp : 0 ≤ percdamp)
    (hpd : isPD (dampedH (maskDeadH (compute_hessian inp)) percdamp)) :
    ∃ loss Wq sz,
      quantize_weight observer qf strategy none group_size sparsityThreshold
          weight inp blocksize percdamp weight_original =
        Except.ok (loss, Wq, sz, none) ∧
      (∀ a : Fin r, Wq a dead = 0) ∧
      maskDeadH (compute_hessian inp) dead dead = 1 := by
  have hcol : ∀ i, compute_hessian inp i dead = 0 ∧
      compute_hessian inp dead i = 0 :=
    compute_hessian_dead_col inp dead hdead
  have hc0 : 0 < c := dead.pos
  have hDstruct := dampedH_dead_structure (compute_hessian inp) percdamp dead
    hdead hcol
  have hdet : (dampedH (maskDeadH (compute_hessian inp)) percdamp).det ≠ 0 :=
    ne_of_gt (isPD_det_pos hc0 _ hpd)
  have hmean : 0 ≤ meanDiag (maskDeadH (compute_hessian inp)) := by
    unfold meanDiag
    apply div_nonneg
    · apply Finset.sum_nonneg
      intro j _
      exact maskDeadH_diag_nonneg _ j (compute_hessian_diag_nonneg inp j)
    · positivity
  have hDdd : dampedH (maskDeadH (compute_hessian inp)) percdamp dead dead ≠ 0 := by
    rw [hDstruct.2]
    have hp : 0 ≤ percdamp * meanDiag (maskDeadH (compute_hessian inp)) :=
      mul_nonneg hdamp hmean
    intro hcon
    linarith
  have hA := matInv_dead_structure _ dead hdet (fun j hj => hDstruct.1 j hj) hDdd
  have hU := cholUpperQ_col_dead
    (matInv (dampedH (maskDeadH (compute_hessian inp)) percdamp)) dead
    (fun j hj => (hA j hj).1)
  have hW0 : ∀ a : Fin r,
      maskDeadW (compute_hessian inp) weight a dead = 0 := by
    intro a
    simp [maskDeadW, hdead]
  have hdeadcol : ∀ a : Fin r,
      (qwLoop
        (cholUpperQ (matInv (dampedH (maskDeadH (compute_hessian inp)) percdamp)))
        weight_original qf
        (if sparsityThreshold ≤ sparsity weight then
          some (Matrix.of fun a b => if weight a b = 0 then (0 : ℚ) else 1)
        else none) blocksize (maskDeadW (compute_hessian inp) weight)).1 a dead = 0 := by
    intro a
    exact qwLoop_fold_dead _ weight_original qf _ blocksize dead hU hq
      (blockStarts c blocksize)
      (maskDeadW (compute_hessian inp) weight, 0) hW0 a
  exact ⟨_, _, _,
    quantize_weight_none_eq observer qf strategy group_size sparsityThreshold
      weight inp blocksize percdamp weight_original hpd,
    hdeadcol, maskDeadH_diag_dead _ hdead⟩

lemma entryN_zero {r c : ℕ} (a : Fin r) (j : ℕ) :
    entryN (0 : Mat r c) a j = 0 := by
  unfold entryN colGet
  split <;> rfl

lemma leadingMinor_zero {n : ℕ} (A : Matrix (Fin n) (Fin n) ℚ) (h : 0 < n) :
    leadingMinor A ⟨0, h⟩ = A ⟨0, h⟩ ⟨0, h⟩ := by
  unfold leadingMinor
  rw [Matrix.det_fin_one]
  simp [Matrix.submatrix_apply]

lemma leadingMinor_one {n : ℕ} (A : Matrix (Fin n) (Fin n) ℚ) (h : 1 < n) :
    leadingMinor A ⟨1, h⟩ =
      A ⟨0, lt_trans one_pos h⟩ ⟨0, lt_trans one_pos h⟩ * A ⟨1, h⟩ ⟨1, h⟩ -
        A ⟨0, lt_trans one_pos h⟩ ⟨1, h⟩ * A ⟨1, h⟩ ⟨0, lt_trans one_pos h⟩ := by
  unfold leadingMinor
  rw [Matrix.det_fin_two]
  simp [Matrix.submatrix_apply]

/-- C9.  When the Cholesky factorization of the damped (dead-masked)
Hessian fails — i.e. the matrix is not positive-definite — `compress`
raises a `ValueError` carrying the remediation guidance (increase
`GPTQModifier.dampening_frac`, increase the number of calibration
samples, or shuffle the calibration dataset), verbatim the string
`choleskyFailureMsg`.  The result is an error and nothing else: no
quantized weight is produced and no retry with different parameters
occurs. -/
theorem compress_not_posdef_raises {r c : ℕ} {qS : Type}
    (obsInit : Mat r c → qS)
    (qf : qS → ℕ → Mat r c → (Fin r → ℚ) → (Fin r → ℚ) × qS)
    (strategy : QStrategy) (actorder : Option AOrder) (group_size : ℕ)
    (sparsityThreshold : ℚ) (weight : Mat r c) (H0 : Mat c c)
    (blocksize : ℕ) (percdamp : ℚ)
    (hfail : ¬ isPD (dampedH (maskDeadH
      (dispatch obsInit strategy actorder group_size weight H0).2.1) percdamp)) :
    compress obsInit qf strategy actorder group_size sparsityThreshold weight
        H0 blocksize percdamp = Except.error choleskyFailureMsg := by
  simp only [compress]
  rw [if_neg hfail]

/-- Witness for C9: a concrete 2×2 accumulated Hessian `[[1,2],[2,1]]`
with zero dampening is not positive-definite (determinant `-3`), so
`compress` returns exactly the remediation error. -/
theorem compress_not_posdef_raises_witness :
    compress (fun _ : Mat 1 2 => ()) (fun s _ _ v => (v, s)) QStrategy.tensor
        none 128 (1/2) !![(0:ℚ), 0] !![(1:ℚ), 2; 2, 1] 128 0 =
      Except.error choleskyFailureMsg := by
  refine compress_not_posdef_raises _ _ _ _ _ _ _ _ _ _ ?_
  have hmH : maskDeadH !![(1:ℚ),2;2,1] = !![1,2;2,1] := by
    ext i j
    fin_cases i <;> fin_cases j <;> norm_num [maskDeadH]
  have hD : dampedH !![(1:ℚ),2;2,1] 0 = !![1,2;2,1] := by
    ext i j
    fin_cases i <;> fin_cases j <;>
      norm_num [dampedH, meanDiag, Fin.sum_univ_two, Matrix.one_apply]
  rw [show (dispatch (fun _ : Mat 1 2 => ()) QStrategy.tensor none 128
      !![(0:ℚ),0] !![(1:ℚ),2;2,1]).2.1 = !![(1:ℚ),2;2,1] from rfl, hmH, hD]
  intro h
  have h1 := h ⟨1, one_lt_two⟩
  rw [leadingMinor_one] at h1
  norm_num at h1

/-- Witness for C5: `inp` with a single activation row `(2, 0)` never
touches input feature 1, so `H = [[8,0],[0,0]]` has a dead column at
index 1; with `percdamp = 16/9` the damped masked Hessian is
`[[16,0],[0,9]]` (positive-definite, rational Cholesky), and
round-to-integer quantization maps the zero column to zero. -/
theorem quantize_weight_dead_column_witness :
    ∃ loss Wq sz,
      quantize_weight (fun _ : Mat 1 2 => ()) (fun _ v a => roundQ (v a))
          QStrategy.tensor none 128 (1/2) !![(1:ℚ)/2, 7]
          (Hessian.Act.r2 [![2, 0]]) 2 (16/9) !![(1:ℚ)/2, 7] =
        Except.ok (loss, Wq, sz, none) ∧
      (∀ a : Fin 1, Wq a 1 = 0) ∧
      maskDeadH (compute_hessian (Hessian.Act.r2 [![(2:ℚ), 0]])) 1 1 = 1 := by
  have hH : compute_hessian (Hessian.Act.r2 [![(2:ℚ), 0]]) = !![8, 0; 0, 0] := by
    ext i j
    fin_cases i <;> fin_cases j <;>
      norm_num [compute_hessian, Hessian.Act.unsq, Hessian.gram, Hessian.outer,
        Matrix.smul_apply]
  refine quantize_weight_dead_column _ _ _ _ _ _ _ _ _ _ 1 ?_ ?_ ?_ ?_
  · rw [hH]
    norm_num
  · funext a
    norm_num [roundQ]
  · norm_num
  · have hmH : maskDeadH !![(8:ℚ),0;0,0] = !![8,0;0,1] := by
      ext i j
      fin_cases i <;> fin_cases j <;> norm_num [maskDeadH]
    have hD : dampedH !![(8:ℚ),0;0,1] (16/9) = !![16,0;0,9] := by
      ext i j
      fin_cases i <;> fin_cases j <;>
        norm_num [dampedH, meanDiag, Fin.sum_univ_two, Matrix.one_apply]
    rw [hH, hmH, hD]
    intro k
    fin_cases k
    · rw [leadingMinor_zero]
      norm_num
    · rw [leadingMinor_one]
      norm_num

/-- C3 (divergence).  At a concrete 1×2 weight with `blocksize = 1`, the
column loop of `quantize_weight` reads `weight_original[:, i]` with the
within-block index `i` instead of the global column index `i1 + i`: in the
second block (global column 1) it reads column 0 of `weight_original`
(value 3) instead of column 1 (value 1/3).  The returned total loss is
therefore `(3 - 0)² / (2/5)² / 2 = 225/8`, while the per-column formula of
the specification — using each column's own weight value — evaluates to
`25/72` at the same quantized output and the same inverted damped Hessian
(whose computation the third conjunct pins down).  The activation rows are
`(2,0)` and `(0,1)`, giving `H = [[8,0],[0,2]]`; `percdamp = 17/20` makes
the Cholesky factor rational; the quantizer is round-to-integer. -/
theorem quantize_weight_loss_misindexed_eval :
    quantize_weight (fun _ : Mat 1 2 => ()) (fun _ v a => roundQ (v a))
        QStrategy.tensor none 128 (1/2) !![(3:ℚ), 1/3]
        (Hessian.Act.r2 [![2, 0], ![0, 1]]) 1 (17/20) !![(3:ℚ), 1/3] =
      Except.ok (225/8, !![(3:ℚ), 0], (), none)
    ∧ cholUpperQ (matInv (dampedH (maskDeadH
        (compute_hessian (Hessian.Act.r2 [![(2:ℚ), 0], ![0, 1]]))) (17/20))) =
      !![(2:ℚ)/7, 0; 0, 2/5]
    ∧ perColumnLossSpec !![(3:ℚ), 1/3] !![(3:ℚ), 0] !![(2:ℚ)/7, 0; 0, 2/5] = 25/72
    ∧ (225/8 : ℚ) ≠ 25/72 := by
  have hH : compute_hessian (Hessian.Act.r2 [![(2:ℚ), 0], ![0, 1]]) =
      !![8, 0; 0, 2] := by
    ext i j
    fin_cases i <;> fin_cases j <;>
      norm_num [compute_hessian, Hessian.Act.unsq, Hessian.gram, Hessian.outer,
        Matrix.smul_apply]
  have hsp : sparsity !![(3:ℚ), 1/3] = 0 := by
    unfold sparsity
    rw [Finset.filter_eq_empty_iff.mpr]
    · simp
    · intro ab _
      fin_cases ab <;> norm_num
  have hmH : maskDeadH !![(8:ℚ),0;0,2] = !![8,0;0,2] := by
    ext i j
    fin_cases i <;> fin_cases j <;> norm_num [maskDeadH]
  have hmW : maskDeadW !![(8:ℚ),0;0,2] !![(3:ℚ),1/3] = !![3,1/3] := by
    ext i j
    fin_cases i <;> fin_cases j <;> norm_num [maskDeadW]
  have hD : dampedH !![(8:ℚ),0;0,2] (17/20) = !![49/4, 0; 0, 25/4] := by
    ext i j
    fin_cases i <;> fin_cases j <;>
      norm_num [dampedH, meanDiag, Fin.sum_univ_two, Matrix.one_apply]
  have hPD : isPD !![(49:ℚ)/4,0;0,25/4] := by
    intro k
    fin_cases k
    · rw [leadingMinor_zero]
      norm_num
    · rw [leadingMinor_one]
      norm_num
  have hInv : matInv !![(49:ℚ)/4,0;0,25/4] = !![4/49,0;0,4/25] := by
    ext i j
    fin_cases i <;> fin_cases j <;>
      norm_num [matInv, Matrix.det_fin_two, Matrix.adjugate_fin_two]
  have hChol : cholUpperQ !![(4:ℚ)/49,0;0,4/25] = !![2/7,0;0,2/5] := by
    have e1 : cholPrefix !![(4:ℚ)/49,0;0,4/25] 1 =
        cholStep !![(4:ℚ)/49,0;0,4/25] (cholPrefix !![(4:ℚ)/49,0;0,4/25] 0) 0 :=
      cholPrefix_succ _ 0
    have e2 : cholPrefix !![(4:ℚ)/49,0;0,4/25] 2 =
        cholStep !![(4:ℚ)/49,0;0,4/25] (cholPrefix !![(4:ℚ)/49,0;0,4/25] 1) 1 :=
      cholPrefix_succ _ 1
    rw [cholUpperQ_eq_cholPrefix, e2, e1]
    ext i j
    fin_cases i <;> fin_cases j <;>
      norm_num [cholPrefix, cholStep, Hget, sqrtQ, Finset.sum_range_zero,
        Finset.sum_range_one, Matrix.zero_apply, show ((4:ℤ)).toNat = 4 from rfl]
  have hih : invert_hessian !![(8:ℚ),0;0,2] (17/20) =
      Except.ok !![(2:ℚ)/7,0;0,2/5] := by
    unfold invert_hessian
    rw [hD, if_pos hPD, hInv, hChol]
  have hinner0 : (List.range 1).foldl
      (qwInner !![(2:ℚ)/7,0;0,2/5] !![(3:ℚ),1/3] (fun _ v a => roundQ (v a)) none 0 1)
      (!![(3:ℚ),1/3], 0, 0, 0) =
      (!![(3:ℚ),1/3], !![(3:ℚ),0], (0 : Mat 1 2), (0 : Mat 1 2)) := by
    rw [show List.range 1 = [0] from by simp [List.range_succ],
      List.foldl_cons, List.foldl_nil, qwInner_proj]
    refine Prod.ext ?_ (Prod.ext ?_ (Prod.ext ?_ ?_)) <;>
    · ext i j
      fin_cases i <;> fin_cases j <;>
        norm_num [colGet, colSet, Hget, maskAt, roundQ, Matrix.zero_apply]
  have hblock0 : qwBlock !![(2:ℚ)/7,0;0,2/5] !![(3:ℚ), 1/3]
      (fun _ v a => roundQ (v a)) none 1 (!![(3:ℚ), 1/3], 0) 0 =
      (!![(3:ℚ), 1/3], fun _ => 0) := by
    have hmin : min (0 + 1) 2 = 1 := by norm_num
    refine Prod.ext ?_ ?_
    · show (Matrix.of _ : Mat 1 2) = _
      simp only [qwBlock, hmin]
      rw [hinner0]
      ext i j
      fin_cases i <;> fin_cases j <;>
        norm_num [entryN_zero, maskAt, Matrix.zero_apply]
    · funext a
      simp only [qwBlock, hmin]
      rw [hinner0]
      norm_num [Fin.sum_univ_two, Matrix.zero_apply, Pi.zero_apply]
  have hinner1 : (List.range 1).foldl
      (qwInner !![(2:ℚ)/7,0;0,2/5] !![(3:ℚ),1/3] (fun _ v a => roundQ (v a)) none 1 2)
      (!![(3:ℚ),1/3], 0, 0, 0) =
      (!![(3:ℚ), -8/3], (0 : Mat 1 2), !![(0:ℚ), 15/2], !![(0:ℚ), 225/4]) := by
    rw [show List.range 1 = [0] from by simp [List.range_succ],
      List.foldl_cons, List.foldl_nil, qwInner_proj]
    refine Prod.ext ?_ (Prod.ext ?_ (Prod.ext ?_ ?_)) <;>
    · ext i j
      fin_cases i <;> fin_cases j <;>
        norm_num [colGet, colSet, Hget, maskAt, roundQ, Matrix.zero_apply]
  have hblock1 : qwBlock !![(2:ℚ)/7,0;0,2/5] !![(3:ℚ), 1/3]
      (fun _ v a => roundQ (v a)) none 1 (!![(3:ℚ), 1/3], fun _ => 0) 1 =
      (!![(3:ℚ), 0], fun _ => 225/8) := by
    have hmin : min (1 + 1) 2 = 2 := by norm_num
    refine Prod.ext ?_ ?_
    · show (Matrix.of _ : Mat 1 2) = _
      simp only [qwBlock, hmin]
      rw [hinner1]
      ext i j
      fin_cases i <;> fin_cases j <;>
        norm_num [entryN_zero, maskAt, Matrix.zero_apply]
    · funext a
      simp only [qwBlock, hmin]
      rw [hinner1]
      norm_num [Fin.sum_univ_two, Matrix.zero_apply, Pi.zero_apply]
  have hloop : qwLoop !![(2:ℚ)/7,0;0,2/5] !![(3:ℚ), 1/3]
      (fun _ v a => roundQ (v a)) none 1 !![(3:ℚ), 1/3] =
      (!![(3:ℚ), 0], fun _ => 225/8) := by
    unfold qwLoop
    rw [show blockStarts 2 1 = [0, 1] from by decide,
      List.foldl_cons, List.foldl_cons, List.foldl_nil, hblock0, hblock1]
  refine ⟨?_, ?_, ?_, by norm_num⟩
  · simp only [quantize_weight, dispatch]
    rw [hH, hsp, if_neg (by norm_num : ¬ ((1:ℚ)/2 ≤ 0)), hmH, hmW, hih]
    simp only [hloop, Fin.sum_univ_one]
    norm_num
  · rw [hH, hmH, hD, hInv, hChol]
  · unfold perColumnLossSpec
    rw [Fin.sum_univ_two]
    norm_num [Fin.sum_univ_one]

/-- C4 (divergence).  Group strategy with `actorder = GROUP`,
`group_size = 1`, at a Hessian whose diagonal `[8, 2]` is already strictly
descending: the activation-ordering permutation is the identity, so after
unpermutation the final column→group mapping `fun j => j / 1` is exactly
the default a priori mapping — yet `quantize_weight` returns it as `some`
(`has_gidx` is set unconditionally in the GROUP branch, despite the
comment "only save g_idx if mapping is not identity"), instead of
dropping it as `None`. -/
theorem quantize_weight_gidx_redundant_eval :
    quantize_weight (fun _ : Mat 1 2 => ()) (fun _ v a => roundQ (v a))
        QStrategy.group (some AOrder.group) 1 (1/2) !![(3:ℚ), 1/3]
        (Hessian.Act.r2 [![2, 0], ![0, 1]]) 2 (17/20) !![(3:ℚ), 1/3] =
      Except.ok (25/72, !![(3:ℚ), 0], (), some (fun j : Fin 2 => (j : ℕ) / 1)) := by
  have hH : compute_hessian (Hessian.Act.r2 [![(2:ℚ), 0], ![0, 1]]) =
      !![8, 0; 0, 2] := by
    ext i j
    fin_cases i <;> fin_cases j <;>
      norm_num [compute_hessian, Hessian.Act.unsq, Hessian.gram, Hessian.outer,
        Matrix.smul_apply]
  have happ : apply_activation_ordering !![(3:ℚ),1/3] !![(8:ℚ),0;0,2] =
      (!![3,1/3], !![8,0;0,2], permFun [0,1]) := by
    have hsort : argsortDesc (fun j : Fin 2 => (!![(8:ℚ),0;0,2]) j j) = [0, 1] := by
      have hfr : List.finRange 2 = [0, 1] := by decide
      simp only [argsortDesc, isortBy, hfr, insertSorted]
      norm_num
    unfold apply_activation_ordering
    rw [hsort]
    refine Prod.ext ?_ (Prod.ext ?_ rfl)
    · ext i j
      fin_cases i <;> fin_cases j <;>
        norm_num [permFun, List.getD_cons_zero, List.getD_cons_succ]
    · ext i j
      fin_cases i <;> fin_cases j <;>
        norm_num [permFun, List.getD_cons_zero, List.getD_cons_succ]
  have hsp : sparsity !![(3:ℚ), 1/3] = 0 := by
    unfold sparsity
    rw [Finset.filter_eq_empty_iff.mpr]
    · simp
    · intro ab _
      fin_cases ab <;> norm_num
  have hmH : maskDeadH !![(8:ℚ),0;0,2] = !![8,0;0,2] := by
    ext i j
    fin_cases i <;> fin_cases j <;> norm_num [maskDeadH]
  have hmW : maskDeadW !![(8:ℚ),0;0,2] !![(3:ℚ),1/3] = !![3,1/3] := by
    ext i j
    fin_cases i <;> fin_cases j <;> norm_num [maskDeadW]
  have hD : dampedH !![(8:ℚ),0;0,2] (17/20) = !![49/4, 0; 0, 25/4] := by
    ext i j
    fin_cases i <;> fin_cases j <;>
      norm_num [dampedH, meanDiag, Fin.sum_univ_two, Matrix.one_apply]
  have hPD : isPD !![(49:ℚ)/4,0;0,25/4] := by
    intro k
    fin_cases k
    · rw [leadingMinor_zero]
      norm_num
    · rw [leadingMinor_one]
      norm_num
  have hInv : matInv !![(49:ℚ)/4,0;0,25/4] = !![4/49,0;0,4/25] := by
    ext i j
    fin_cases i <;> fin_cases j <;>
      norm_num [matInv, Matrix.det_fin_two, Matrix.adjugate_fin_two]
  have hChol : cholUpperQ !![(4:ℚ)/49,0;0,4/25] = !![2/7,0;0,2/5] := by
    have e1 : cholPrefix !![(4:ℚ)/49,0;0,4/25] 1 =
        cholStep !![(4:ℚ)/49,0;0,4/25] (cholPrefix !![(4:ℚ)/49,0;0,4/25] 0) 0 :=
      cholPrefix_succ _ 0
    have e2 : cholPrefix !![(4:ℚ)/49,0;0,4/25] 2 =
        cholStep !![(4:ℚ)/49,0;0,4/25] (cholPrefix !![(4:ℚ)/49,0;0,4/25] 1) 1 :=
      cholPrefix_succ _ 1
    rw [cholUpperQ_eq_cholPrefix, e2, e1]
    ext i j
    fin_cases i <;> fin_cases j <;>
      norm_num [cholPrefix, cholStep, Hget, sqrtQ, Finset.sum_range_zero,
        Finset.sum_range_one, Matrix.zero_apply, show ((4:ℤ)).toNat = 4 from rfl]
  have hih : invert_hessian !![(8:ℚ),0;0,2] (17/20) =
      Except.ok !![(2:ℚ)/7,0;0,2/5] := by
    unfold invert_hessian
    rw [hD, if_pos hPD, hInv, hChol]
  have s0 : qwInner !![(2:ℚ)/7,0;0,2/5] !![(3:ℚ),1/3]
      (fun _ v a => roundQ (v a)) none 0 2 (!![(3:ℚ),1/3], 0, 0, 0) 0 =
      (!![(3:ℚ),1/3], !![(3:ℚ),0], (0 : Mat 1 2), (0 : Mat 1 2)) := by
    rw [qwInner_proj]
    refine Prod.ext ?_ (Prod.ext ?_ (Prod.ext ?_ ?_)) <;>
    · ext i j
      fin_cases i <;> fin_cases j <;>
        norm_num [colGet, colSet, Hget, maskAt, roundQ, Matrix.zero_apply]
  have s1 : qwInner !![(2:ℚ)/7,0;0,2/5] !![(3:ℚ),1/3]
      (fun _ v a => roundQ (v a)) none 0 2
      (!![(3:ℚ),1/3], !![(3:ℚ),0], (0 : Mat 1 2), (0 : Mat 1 2)) 1 =
      (!![(3:ℚ),0], !![(3:ℚ),0], !![(0:ℚ),5/6], !![(0:ℚ),25/36]) := by
    rw [qwInner_proj]
    refine Prod.ext ?_ (Prod.ext ?_ (Prod.ext ?_ ?_)) <;>
    · ext i j
      fin_cases i <;> fin_cases j <;>
        norm_num [colGet, colSet, Hget, maskAt, roundQ, Matrix.zero_apply]
  have hblockA : qwBlock !![(2:ℚ)/7,0;0,2/5] !![(3:ℚ), 1/3]
      (fun _ v a => roundQ (v a)) none 2 (!![(3:ℚ), 1/3], 0) 0 =
      (!![(3:ℚ), 0], fun _ => 25/72) := by
    have hmin : min (0 + 2) 2 = 2 := by norm_num
    have hfold : (List.range 2).foldl
        (qwInner !![(2:ℚ)/7,0;0,2/5] !![(3:ℚ),1/3]
          (fun _ v a => roundQ (v a)) none 0 2)
        (!![(3:ℚ),1/3], 0, 0, 0) =
        (!![(3:ℚ),0], !![(3:ℚ),0], !![(0:ℚ),5/6], !![(0:ℚ),25/36]) := by
      rw [show List.range 2 = [0, 1] from by decide,
        List.foldl_cons, List.foldl_cons, List.foldl_nil, s0, s1]
    refine Prod.ext ?_ ?_
    · show (Matrix.of _ : Mat 1 2) = _
      simp only [qwBlock, hmin]
      rw [hfold]
      ext i j
      fin_cases i <;> fin_cases j <;>
        norm_num [entryN_zero, maskAt, Matrix.zero_apply]
    · funext a
      simp only [qwBlock, hmin]
      rw [hfold]
      norm_num [Fin.sum_univ_two, Matrix.zero_apply, Pi.zero_apply]
  have hloopA : qwLoop !![(2:ℚ)/7,0;0,2/5] !![(3:ℚ), 1/3]
      (fun _ v a => roundQ (v a)) none 2 !![(3:ℚ), 1/3] =
      (!![(3:ℚ), 0], fun _ => 25/72) := by
    unfold qwLoop
    rw [show blockStarts 2 2 = [0] from by decide,
      List.foldl_cons, List.foldl_nil, hblockA]
  have hip : invPerm (permFun ([0, 1] : List (Fin 2))) = fun k => k := by decide
  simp only [quantize_weight, dispatch]
  rw [hH]
  simp only [happ]
  rw [hsp, if_neg (by norm_num : ¬ ((1:ℚ)/2 ≤ 0)), hmH, hmW, hih]
  simp only [hloopA, hip, Fin.sum_univ_one]
  refine congrArg Except.ok ?_
  refine Prod.ext (by norm_num) (Prod.ext ?_ (Prod.ext rfl ?_))
  · ext i j
    fin_cases i <;> fin_cases j <;> norm_num
  · simp

end GPTQ

namespace Partition

lemma lookup_mem {g : Graph} {i : ℕ} {n : Node} (h : lookup g i = some n) :
    n ∈ g ∧ n.id = i := by
  refine ⟨List.mem_of_find?_eq_some h, ?_⟩
  have h2 := List.find?_some h
  simpa using h2

lemma lookup_of_mem {g : Graph} (hids : (g.map Node.id).Nodup) {n : Node}
    (hn : n ∈ g) : lookup g n.id = some n := by
  induction g with
  | nil => cases hn
  | cons m g ih =>
    rw [List.map_cons, List.nodup_cons] at hids
    rcases List.mem_cons.mp hn with rfl | hn'
    · exact List.find?_cons_of_pos _ (by simp)
    · have hne : ¬ (m.id = n.id) := fun e =>
        hids.1 (e ▸ List.mem_map_of_mem Node.id hn')
      rw [lookup, List.find?_cons_of_neg _ (by simpa using hne)]
      exact ih hids.2 hn'

lemma isGetAttr_true {g : Graph} {u : ℕ} (h : isGetAttr g u = true) :
    ∃ n ∈ g, n.id = u ∧ n.op = Op.getattr := by
  rw [isGetAttr, decide_eq_true_eq, opOf] at h
  cases hl : lookup g u with
  | none => rw [hl] at h; cases h
  | some n =>
    rw [hl] at h
    simp only [Option.map_some', Option.some.injEq] at h
    obtain ⟨hmem, hid⟩ := lookup_mem hl
    exact ⟨n, hmem, hid, h⟩

lemma isGetAttr_of_node {g : Graph} (hids : (g.map Node.id).Nodup) {n : Node}
    (hn : n ∈ g) (hop : n.op = Op.getattr) : isGetAttr g n.id = true := by
  rw [isGetAttr, decide_eq_true_eq, opOf, lookup_of_mem hids hn,
    Option.map_some', hop]

lemma check_assumption_users {g : Graph} (hc : check_assumption g = true)
    {n : Node} (hn : n ∈ g) {u : ℕ} (hu : u ∈ n.users) :
    ∃ un, lookup g u = some un ∧ n.id ∈ un.inputs := by
  rw [check_assumption, List.all_eq_true] at hc
  have h1 := hc n hn
  rw [Bool.and_eq_true, Bool.and_eq_true, Bool.and_eq_true] at h1
  have h2 := h1.1.1.1
  rw [List.all_eq_true] at h2
  have h3 := h2 u hu
  revert h3
  cases hl : lookup g u with
  | none => intro h3; simp at h3
  | some un => intro h3; exact ⟨un, rfl, by simpa using h3⟩

lemma usersOf_nonattr {g : Graph} (hc : check_assumption g = true)
    (ha : AttrFree g) (node : ℕ) :
    ∀ u ∈ usersOf g node, isGetAttr g u = false := by
  intro u hu
  rw [usersOf] at hu
  revert hu
  cases hl : lookup g node with
  | none => intro hu; simp at hu
  | some nn =>
    intro hu
    simp only [Option.map_some', Option.getD_some] at hu
    have hmem := (lookup_mem hl).1
    obtain ⟨un, hlu, hin⟩ := check_assumption_users hc hmem hu
    have hop : ¬ (un.op = Op.getattr) := by
      intro he
      have h0 := ha un (lookup_mem hlu).1 he
      rw [h0] at hin
      cases hin
    rw [isGetAttr, opOf, hlu, Option.map_some']
    simpa using hop

lemma decFold_inv (g : Graph) (P : List ℕ) :
    ∀ (us : List ℕ) (q : List ℕ) (ind : ℕ → ℤ),
      (∀ u ∈ us, isGetAttr g u = false) →
      q.Nodup → (∀ u ∈ q, u ∉ P) →
      (∀ u : ℕ, u ∈ q ∨ u ∈ P → ind u ≤ 0) →
      (∀ u ∈ q, isGetAttr g u = false) →
      (us.foldl decStep (q, ind)).1.Nodup ∧
      (∀ u ∈ (us.foldl decStep (q, ind)).1, u ∉ P) ∧
      (∀ u : ℕ, u ∈ (us.foldl decStep (q, ind)).1 ∨ u ∈ P →
        (us.foldl decStep (q, ind)).2 u ≤ 0) ∧
      (∀ u ∈ (us.foldl decStep (q, ind)).1, isGetAttr g u = false) := by
  intro us
  induction us with
  | nil => intro q ind hus h1 h2 h3 h4; exact ⟨h1, h2, h3, h4⟩
  | cons u us ih =>
    intro q ind hus h1 h2 h3 h4
    have hus' : ∀ v ∈ us, isGetAttr g v = false :=
      fun v hv => hus v (List.mem_cons_of_mem _ hv)
    rw [List.foldl_cons]
    by_cases hd : ind u - 1 = 0
    · have hqP : u ∉ q ∧ u ∉ P := by
        constructor <;> intro hmem
        · have := h3 u (Or.inl hmem); omega
        · have := h3 u (Or.inr hmem); omega
      have hstep : decStep (q, ind) u =
          (q ++ [u], fun x => if x = u then ind u - 1 else ind x) := by
        simp only [decStep, if_pos hd]
      rw [hstep]
      refine ih _ _ hus' ?_ ?_ ?_ ?_
      · refine List.Nodup.append h1 (List.nodup_singleton u) ?_
        intro x hx hx'
        rw [List.mem_singleton] at hx'
        subst hx'
        exact hqP.1 hx
      · intro v hv
        rcases List.mem_append.mp hv with hv' | hv'
        · exact h2 v hv'
        · rw [List.mem_singleton] at hv'; subst hv'; exact hqP.2
      · intro v hv
        by_cases hvu : v = u
        · subst hvu; simp [hd]
        · simp only [if_neg hvu]
          refine h3 v ?_
          rcases hv with hv' | hv'
          · rcases List.mem_append.mp hv' with h | h
            · exact Or.inl h
            · rw [List.mem_singleton] at h; exact absurd h hvu
          · exact Or.inr hv'
      · intro v hv
        rcases List.mem_append.mp hv with hv' | hv'
        · exact h4 v hv'
        · rw [List.mem_singleton] at hv'
          rw [hv']
          exact hus u (List.mem_cons_self u us)
    · have hstep : decStep (q, ind) u =
          (q, fun x => if x = u then ind u - 1 else ind x) := by
        simp only [decStep, if_neg hd]
      rw [hstep]
      refine ih _ _ hus' h1 h2 ?_ h4
      intro v hv
      by_cases hvu : v = u
      · subst hvu
        simp only [if_pos rfl]
        have := h3 v hv
        omega
      · simp only [if_neg hvu]
        exact h3 v hv

lemma appendAt_concat (init : List (List ℕ)) (last : List ℕ) (x : ℕ) :
    appendAt (init ++ [last]) init.length x = init ++ [last ++ [x]] := by
  induction init with
  | nil => rfl
  | cons p init ih =>
    show appendAt (p :: (init ++ [last])) (init.length + 1) x = _
    rw [appendAt] at ih ⊢
    rw [List.getD_cons_succ, List.set_cons_succ, ih]
    rfl

lemma ShapeOK_append_last (targets : List ℕ) (ps : List (List ℕ))
    (cur : List ℕ) (x : ℕ) (hx : x ∉ targets)
    (h : ShapeOK targets (ps ++ [cur])) :
    ShapeOK targets (ps ++ [cur ++ [x]]) := by
  cases ps with
  | nil =>
    refine ⟨?_, ?_⟩
    · intro t ht
      have ht2 : t ∈ cur ∨ t = x := by simpa using ht
      rcases ht2 with ht' | ht'
      · exact h.1 t (by simpa using ht')
      · subst ht'; exact hx
    · intro p hp
      simp at hp
  | cons p0 ps =>
    refine ⟨?_, ?_⟩
    · intro t ht
      exact h.1 t (by simpa using ht)
    · intro p hp
      have hp2 : p ∈ ps ∨ p = cur ++ [x] := by
        simpa using hp
      rcases hp2 with hp' | hp'
      · exact h.2 p (by simp [hp'])
      · have hcur : TPart targets cur := h.2 cur (by simp)
        obtain ⟨t, tl, he, ht, htl⟩ := hcur
        refine ⟨t, tl ++ [x], by rw [hp', he]; rfl, ht, ?_⟩
        intro y hy
        rcases List.mem_append.mp hy with hy' | hy'
        · exact htl y hy'
        · rw [List.mem_singleton] at hy'; subst hy'; exact hx

lemma ShapeOK_snoc (targets : List ℕ) (parts : List (List ℕ))
    (hne : parts ≠ []) (h : ShapeOK targets parts) (p : List ℕ)
    (hp : TPart targets p) : ShapeOK targets (parts ++ [p]) := by
  cases parts with
  | nil => exact absurd rfl hne
  | cons p0 rest =>
    refine ⟨?_, ?_⟩
    · intro t ht
      exact h.1 t (by simpa using ht)
    · intro q hq
      have hq2 : q ∈ rest ∨ q = p := by simpa using hq
      rcases hq2 with hq' | hq'
      · exact h.2 q (by simp [hq'])
      · subst hq'; exact hp

lemma kahnStep_pos {g : Graph} {targets : List ℕ} {node : ℕ} {rest : List ℕ}
    {st : KState} (ht : node ∈ targets) :
    kahnStep g targets node rest st =
      { queue := (decUsers g node (rest, st.indeg)).1,
        indeg := (decUsers g node (rest, st.indeg)).2,
        partitions := appendAt (st.partitions ++ [[]]) (st.pindex + 1) node,
        pindex := st.pindex + 1 } := by
  simp [kahnStep, ht]

lemma kahnStep_neg {g : Graph} {targets : List ℕ} {node : ℕ} {rest : List ℕ}
    {st : KState} (ht : node ∉ targets) :
    kahnStep g targets node rest st =
      { queue := (decUsers g node (rest, st.indeg)).1,
        indeg := (decUsers g node (rest, st.indeg)).2,
        partitions := appendAt st.partitions st.pindex node,
        pindex := st.pindex } := by
  simp [kahnStep, ht]

lemma kahnStep_inv {g : Graph} {targets : List ℕ}
    (hc : check_assumption g = true) (ha : AttrFree g) {st : KState}
    {node : ℕ} {rest : List ℕ} (hq : st.queue = node :: rest)
    (hinv : KInv g targets st) :
    KInv g targets (kahnStep g targets node rest st) := by
  obtain ⟨ps, cur, hparts, hpidx, hshape⟩ := hinv.shape
  rw [hparts] at hshape
  have hnode_q : node ∈ st.queue := by rw [hq]; exact List.mem_cons_self _ _
  have hqn := hinv.qn
  rw [hq, List.nodup_cons] at hqn
  have hnode_np : node ∉ st.partitions.flatten := hinv.disj node hnode_q
  have hmain : ∃ ps2 cur2,
      (kahnStep g targets node rest st).partitions = ps2 ++ [cur2] ∧
      (kahnStep g targets node rest st).pindex = ps2.length ∧
      ShapeOK targets ((kahnStep g targets node rest st).partitions) ∧
      (kahnStep g targets node rest st).partitions.flatten =
        st.partitions.flatten ++ [node] := by
    by_cases ht : node ∈ targets
    · have hlen : ps.length + 1 = (ps ++ [cur]).length := by simp
      refine ⟨ps ++ [cur], [node], ?_, ?_, ?_, ?_⟩
      · rw [kahnStep_pos ht, hparts, hpidx]
        show appendAt ((ps ++ [cur]) ++ [[]]) (ps.length + 1) node = _
        rw [hlen, appendAt_concat]
        rfl
      · rw [kahnStep_pos ht, hpidx]
        simp
      · rw [kahnStep_pos ht, hparts, hpidx]
        show ShapeOK targets (appendAt ((ps ++ [cur]) ++ [[]])
          (ps.length + 1) node)
        rw [hlen, appendAt_concat]
        refine ShapeOK_snoc targets (ps ++ [cur]) (by simp) hshape _ ?_
        exact ⟨node, [], rfl, ht, by simp⟩
      · rw [kahnStep_pos ht, hparts, hpidx]
        show (appendAt ((ps ++ [cur]) ++ [[]]) (ps.length + 1) node).flatten
          = _
        rw [hlen, appendAt_concat]
        simp
    · refine ⟨ps, cur ++ [node], ?_, ?_, ?_, ?_⟩
      · rw [kahnStep_neg ht, hparts, hpidx]
        exact appendAt_concat ps cur node
      · rw [kahnStep_neg ht, hpidx]
      · rw [kahnStep_neg ht, hparts, hpidx, appendAt_concat]
        exact ShapeOK_append_last targets ps cur node ht hshape
      · rw [kahnStep_neg ht, hparts, hpidx, appendAt_concat]
        simp
  obtain ⟨ps2, cur2, hparts2, hpidx2, hshape2, hflat2⟩ := hmain
  have hq2 : (kahnStep g targets node rest st).queue =
      (decUsers g node (rest, st.indeg)).1 := by
    by_cases ht : node ∈ targets
    · rw [kahnStep_pos ht]
    · rw [kahnStep_neg ht]
  have hind2 : (kahnStep g targets node rest st).indeg =
      (decUsers g node (rest, st.indeg)).2 := by
    by_cases ht : node ∈ targets
    · rw [kahnStep_pos ht]
    · rw [kahnStep_neg ht]
  have hmemP : ∀ v : ℕ, v ∈ (kahnStep g targets node rest st).partitions.flatten
      ↔ v ∈ st.partitions.flatten ∨ v = node := by
    intro v
    rw [hflat2]
    simp
  have hfold := decFold_inv g ((kahnStep g targets node rest st).partitions.flatten)
      (usersOf g node) rest st.indeg (usersOf_nonattr hc ha node)
      hqn.2 ?_ ?_ ?_
  rotate_left
  · intro v hv hvP
    rcases (hmemP v).mp hvP with h' | h'
    · exact hinv.disj v (by rw [hq]; exact List.mem_cons_of_mem _ hv) h'
    · subst h'; exact hqn.1 hv
  · intro v hv
    rcases hv with hv' | hv'
    · exact hinv.counter v (Or.inl (by rw [hq]; exact List.mem_cons_of_mem _ hv'))
    · rcases (hmemP v).mp hv' with h' | h'
      · exact hinv.counter v (Or.inr h')
      · subst h'; exact hinv.counter v (Or.inl hnode_q)
  · intro v hv
    exact hinv.na v (Or.inl (by rw [hq]; exact List.mem_cons_of_mem _ hv))
  · have hdec : decUsers g node (rest, st.indeg) =
        (usersOf g node).foldl decStep (rest, st.indeg) := rfl
    constructor
    · rw [hq2, hdec]; exact hfold.1
    · rw [hflat2]
      refine List.Nodup.append hinv.pn (List.nodup_singleton node) ?_
      intro x hx hx'
      rw [List.mem_singleton] at hx'
      subst hx'
      exact hnode_np hx
    · rw [hq2, hdec]
      exact hfold.2.1
    · rw [hq2, hind2, hdec]
      exact hfold.2.2.1
    · intro v hv
      rcases hv with hv' | hv'
      · rw [hq2, hdec] at hv'
        exact hfold.2.2.2 v hv'
      · rcases (hmemP v).mp hv' with h' | h'
        · exact hinv.na v (Or.inr h')
        · subst h'; exact hinv.na v (Or.inl hnode_q)
    · exact ⟨ps2, cur2, hparts2, hpidx2, hshape2⟩

lemma initState_inv {g : Graph} {targets : List ℕ}
    (hids : (g.map Node.id).Nodup) : KInv g targets (initState g) := by
  have hqdef : (initState g).queue = (g.filter fun n =>
      decide ((initState g).indeg n.id = 0) && ! decide (n.op = Op.getattr)).map
      Node.id := rfl
  constructor
  · rw [hqdef]
    exact List.Nodup.sublist ((List.filter_sublist g).map Node.id) hids
  · simp [initState]
  · intro u _ hu
    simp [initState] at hu
  · intro u hu
    rcases hu with hu' | hu'
    · rw [hqdef] at hu'
      obtain ⟨n, hn, rfl⟩ := List.mem_map.mp hu'
      have hn2 := (List.mem_filter.mp hn).2
      rw [Bool.and_eq_true] at hn2
      have := of_decide_eq_true hn2.1
      omega
    · simp [initState] at hu'
  · intro u hu
    rcases hu with hu' | hu'
    · rw [hqdef] at hu'
      obtain ⟨n, hn, rfl⟩ := List.mem_map.mp hu'
      have hn2 := (List.mem_filter.mp hn).2
      rw [Bool.and_eq_true] at hn2
      have hop : ¬ (n.op = Op.getattr) := by
        have := hn2.2
        simp at this
        exact this
      have hmem := (List.mem_filter.mp hn).1
      rw [isGetAttr, opOf, lookup_of_mem hids hmem, Option.map_some']
      simpa using hop
    · simp [initState] at hu'
  · refine ⟨[], [], rfl, rfl, ?_, ?_⟩
    · intro t ht
      simp [initState] at ht
    · intro p hp
      simp [initState] at hp

lemma kahnLoop_inv {g : Graph} {targets : List ℕ}
    (hc : check_assumption g = true) (ha : AttrFree g) :
    ∀ (fuel : ℕ) (st : KState), KInv g targets st →
      KInv g targets (kahnLoop g targets fuel st) := by
  intro fuel
  induction fuel with
  | zero => intro st h; exact h
  | succ fuel ih =>
    intro st h
    rw [kahnLoop]
    cases hq : st.queue with
    | nil => exact h
    | cons node rest => exact ih _ (kahnStep_inv hc ha hq h)

lemma getD_set_self (l : List (List ℕ)) :
    ∀ (i : ℕ) (v : List ℕ), i < l.length → (l.set i v).getD i [] = v := by
  induction l with
  | nil => intro i v h; simp at h
  | cons a l ih =>
    intro i v h
    cases i with
    | zero => rfl
    | succ i =>
      rw [List.set_cons_succ, List.getD_cons_succ]
      exact ih i v (by simpa using h)

lemma getD_set_ne (l : List (List ℕ)) :
    ∀ (i j : ℕ) (v : List ℕ), i ≠ j → (l.set i v).getD j [] = l.getD j [] := by
  induction l with
  | nil => intro i j v _; rfl
  | cons a l ih =>
    intro i j v hij
    cases i with
    | zero =>
      cases j with
      | zero => exact absurd rfl hij
      | succ j => rfl
    | succ i =>
      cases j with
      | zero => rfl
      | succ j =>
        rw [List.set_cons_succ, List.getD_cons_succ, List.getD_cons_succ]
        exact ih i j v (by omega)

lemma foldl_min_mem : ∀ (xs : List ℕ) (x : ℕ), xs.foldl min x ∈ x :: xs := by
  intro xs
  induction xs with
  | nil => intro x; exact List.mem_cons_self _ _
  | cons y ys ih =>
    intro x
    rw [List.foldl_cons]
    have h := ih (min x y)
    rcases List.mem_cons.mp h with h' | h'
    · rcases min_choice x y with hm | hm
      · rw [hm] at h' ⊢
        rw [h']
        exact List.mem_cons_self _ _
      · rw [hm] at h' ⊢
        rw [h']
        exact List.mem_cons_of_mem _ (List.mem_cons_self _ _)
    · exact List.mem_cons_of_mem _ (List.mem_cons_of_mem _ h')

lemma minList_mem {l : List ℕ} {m : ℕ} (h : minList l = some m) : m ∈ l := by
  cases l with
  | nil => cases h
  | cons x xs =>
    rw [minList] at h
    injection h with h
    rw [← h]
    exact foldl_min_mem xs x

lemma findIdx?_some_bound {α : Type _} (p : α → Bool) :
    ∀ (l : List α) (i k : ℕ), List.findIdx? p l i = some k →
      i ≤ k ∧ k - i < l.length := by
  intro l
  induction l with
  | nil => intro i k h; cases h
  | cons a l ih =>
    intro i k h
    rw [List.findIdx?_cons] at h
    by_cases hp : p a = true
    · rw [if_pos hp] at h
      injection h with h
      subst h
      refine ⟨le_refl _, ?_⟩
      simp
    · rw [if_neg hp] at h
      have := ih (i + 1) k h
      constructor <;> [omega; (simp only [List.length_cons]; omega)]

lemma flatten_set_cons (l : List (List ℕ)) :
    ∀ (i x : ℕ), i < l.length →
      ((l.set i (x :: l.getD i [])).flatten).Perm (x :: l.flatten) := by
  induction l with
  | nil => intro i x h; simp at h
  | cons p l ih =>
    intro i x h
    cases i with
    | zero =>
      simp only [List.set_cons_zero, List.getD_cons_zero, List.flatten_cons,
        List.cons_append]
      exact List.Perm.refl _
    | succ i =>
      rw [List.set_cons_succ, List.getD_cons_succ]
      simp only [List.flatten_cons]
      refine List.Perm.trans (List.Perm.append_left p
        (ih i x (by simpa using h))) ?_
      exact List.perm_middle

lemma mem_getD_flatten (l : List (List ℕ)) (k : ℕ) {x : ℕ}
    (h : x ∈ l.getD k []) : x ∈ l.flatten := by
  by_cases hk : k < l.length
  · rw [List.getD_eq_getElem?_getD] at h
    rw [List.getElem?_eq_getElem hk] at h
    exact List.mem_flatten.mpr ⟨l[k], List.getElem_mem hk, h⟩
  · rw [List.getD_eq_default _ _ (by omega)] at h
    cases h

lemma attach_fold_err (g : Graph) :
    ∀ (l : List Node) (e : String),
      l.foldl (attachGetAttr g) (Except.error e) = Except.error e := by
  intro l
  induction l with
  | nil => intro e; rfl
  | cons n l ih =>
    intro e
    rw [List.foldl_cons]
    exact ih e

lemma attach_fold_ok (g : Graph) (base : List (List ℕ))
    (hg : (g.map Node.id).Nodup) :
    ∀ (l : List Node) (ps ps' : List (List ℕ)),
      (∀ m ∈ l, m ∈ g) →
      (l.map Node.id).Nodup →
      InsOnly g base ps → ps.flatten.Nodup →
      (∀ m ∈ l, m.op = Op.getattr → m.id ∉ ps.flatten) →
      l.foldl (attachGetAttr g) (Except.ok ps) = Except.ok ps' →
      InsOnly g base ps' ∧ ps'.flatten.Nodup := by
  intro l
  induction l with
  | nil =>
    intro ps ps' _ _ hio hnd _ hok
    injection hok with hok
    subst hok
    exact ⟨hio, hnd⟩
  | cons n l ih =>
    intro ps ps' hsub hnd_ids hio hnd hfresh hok
    have hsub' : ∀ m ∈ l, m ∈ g :=
      fun m hm => hsub m (List.mem_cons_of_mem _ hm)
    rw [List.foldl_cons] at hok
    rw [List.map_cons, List.nodup_cons] at hnd_ids
    by_cases hop : n.op = Op.getattr
    · rw [show attachGetAttr g (Except.ok ps) n =
          (match minList (n.users.filterMap fun u =>
              ps.findIdx? fun p => p.contains u) with
          | none => Except.error "min() arg is an empty sequence"
          | some pidx => Except.ok (ps.set pidx (n.id :: ps.getD pidx [])))
          from by rw [attachGetAttr, if_pos hop]] at hok
      cases hmin : minList (n.users.filterMap fun u =>
          ps.findIdx? fun p => p.contains u) with
      | none =>
        rw [hmin] at hok
        rw [attach_fold_err] at hok
        cases hok
      | some pidx =>
        rw [hmin] at hok
        have hlt : pidx < ps.length := by
          have hm := minList_mem hmin
          obtain ⟨u, _, hfi⟩ := List.mem_filterMap.mp hm
          have := findIdx?_some_bound _ ps 0 pidx hfi
          omega
        have hperm := flatten_set_cons ps pidx n.id hlt
        have hfr : n.id ∉ ps.flatten := hfresh n (List.mem_cons_self _ _) hop
        refine ih (ps.set pidx (n.id :: ps.getD pidx [])) ps' hsub'
          hnd_ids.2 ?_ ?_ ?_ hok
        · refine ⟨by rw [List.length_set]; exact hio.1, ?_⟩
          intro k
          obtain ⟨ins, hins, hina⟩ := hio.2 k
          by_cases hk : pidx = k
          · subst hk
            refine ⟨n.id :: ins, ?_, ?_⟩
            · rw [getD_set_self ps pidx _ hlt, hins]
              rfl
            · intro x hx
              rcases List.mem_cons.mp hx with hx' | hx'
              · rw [hx']
                exact isGetAttr_of_node hg (hsub n (List.mem_cons_self _ _)) hop
              · exact hina x hx'
          · exact ⟨ins, by rw [getD_set_ne ps pidx k _ hk]; exact hins, hina⟩
        · refine (List.Perm.nodup_iff hperm).mpr ?_
          rw [List.nodup_cons]
          exact ⟨hfr, hnd⟩
        · intro m hm hmop
          have hne : m.id ≠ n.id := by
            intro he
            exact hnd_ids.1 (he ▸ List.mem_map_of_mem Node.id hm)
          intro hmem
          have := (List.Perm.mem_iff hperm).mp hmem
          rcases List.mem_cons.mp this with h' | h'
          · exact hne h'
          · exact hfresh m (List.mem_cons_of_mem _ hm) hmop h'
    · rw [show attachGetAttr g (Except.ok ps) n = Except.ok ps from by
        rw [attachGetAttr, if_neg hop]] at hok
      exact ih ps ps' hsub' hnd_ids.2 hio hnd
        (fun m hm hmop => hfresh m (List.mem_cons_of_mem _ hm) hmop) hok

lemma topological_partition_ok_elim {g : Graph} {targets : List ℕ}
    {parts : List (List ℕ)}
    (hok : topological_partition g targets = Except.ok parts) :
    check_assumption g = true ∧
    (kahnLoop g targets (2 * g.length + 1) (initState g)).queue = [] ∧
    g.foldl (attachGetAttr g)
      (Except.ok (kahnLoop g targets (2 * g.length + 1) (initState g)).partitions)
      = Except.ok parts ∧
    parts.flatten.toFinset = (g.map Node.id).toFinset := by
  by_cases hc : check_assumption g
  · rw [topological_partition, if_pos hc] at hok
    have hok2 :
        (match (kahnLoop g targets (2 * g.length + 1) (initState g)).queue with
        | _ :: _ =>
          (Except.error "kahn loop out of fuel" : Except String (List (List ℕ)))
        | [] =>
          match g.foldl (attachGetAttr g)
              (Except.ok
                (kahnLoop g targets (2 * g.length + 1) (initState g)).partitions)
            with
          | Except.error e => Except.error e
          | Except.ok ps =>
            if (ps.flatten).toFinset = (g.map Node.id).toFinset then Except.ok ps
            else Except.error "assert union of partitions equals node set")
        = Except.ok parts := hok
    clear hok
    refine ⟨hc, ?_⟩
    cases hq : (kahnLoop g targets (2 * g.length + 1) (initState g)).queue with
    | cons a t => rw [hq] at hok2; cases hok2
    | nil =>
      rw [hq] at hok2
      refine ⟨rfl, ?_⟩
      cases hatt : g.foldl (attachGetAttr g)
          (Except.ok
            (kahnLoop g targets (2 * g.length + 1) (initState g)).partitions)
        with
      | error e => rw [hatt] at hok2; cases hok2
      | ok ps =>
        rw [hatt] at hok2
        have hok3 : (if (ps.flatten).toFinset = (g.map Node.id).toFinset
            then Except.ok ps
            else (Except.error "assert union of partitions equals node set"
              : Except String (List (List ℕ)))) = Except.ok parts := hok2
        by_cases hcov : (ps.flatten).toFinset = (g.map Node.id).toFinset
        · rw [if_pos hcov] at hok3
          injection hok3 with hok3
          subst hok3
          exact ⟨rfl, hcov⟩
        · rw [if_neg hcov] at hok3
          cases hok3
  · rw [topological_partition, if_neg hc] at hok
    cases hok

/-- C6: corrected form.  With duplicate-free node ids and inputless
`get_attr` nodes (both true of real `torch.fx` graphs), a successful
`topological_partition` returns partitions that are pairwise disjoint
(their concatenation is duplicate-free) and cover exactly the node set. -/
theorem topological_partition_exact_cover {g : Graph} {targets : List ℕ}
    {parts : List (List ℕ)}
    (hids : (g.map Node.id).Nodup) (ha : AttrFree g)
    (hok : topological_partition g targets = Except.ok parts) :
    parts.flatten.Nodup ∧ ∀ i : ℕ, i ∈ parts.flatten ↔ i ∈ g.map Node.id := by
  obtain ⟨hc, hqnil, hatt, hcov⟩ := topological_partition_ok_elim hok
  have hinv : KInv g targets
      (kahnLoop g targets (2 * g.length + 1) (initState g)) :=
    @kahnLoop_inv g targets hc ha (2 * g.length + 1) (initState g)
      (@initState_inv g targets hids)
  have hmain := attach_fold_ok g
    (kahnLoop g targets (2 * g.length + 1) (initState g)).partitions hids g
    (kahnLoop g targets (2 * g.length + 1) (initState g)).partitions parts
    (fun m hm => hm) hids
    ⟨rfl, fun k => ⟨[], rfl, fun x hx => absurd hx (List.not_mem_nil x)⟩⟩
    hinv.pn ?_ hatt
  · refine ⟨hmain.2, ?_⟩
    intro i
    constructor
    · intro hi
      have h2 := List.mem_toFinset.mpr hi
      rw [hcov] at h2
      exact List.mem_toFinset.mp h2
    · intro hi
      have h2 := List.mem_toFinset.mpr hi
      rw [← hcov] at h2
      exact List.mem_toFinset.mp h2
  · intro m hm hmop hmem
    have hfalse := hinv.na m.id (Or.inr hmem)
    rw [isGetAttr_of_node hids hm hmop] at hfalse
    cases hfalse

lemma ShapeOK_getD_tail {targets : List ℕ} {parts : List (List ℕ)}
    (h : ShapeOK targets parts) {k : ℕ} (h1 : 1 ≤ k)
    (h2 : k < parts.length) : TPart targets (parts.getD k []) := by
  cases parts with
  | nil => simp at h2
  | cons p0 rest =>
    cases k with
    | zero => omega
    | succ k =>
      rw [List.getD_cons_succ]
      have hk : k < rest.length := by
        simp only [List.length_cons] at h2
        omega
      have hmem : rest.getD k [] ∈ rest := by
        rw [List.getD_eq_getElem?_getD, List.getElem?_eq_getElem hk,
          Option.getD_some]
        exact List.getElem_mem hk
      exact h.2 _ hmem

/-- C7: corrected form.  With duplicate-free node ids, inputless
`get_attr` nodes and non-`get_attr` targets, a successful
`topological_partition` puts no target in partition 0, at most one target
in any partition, and every target heads its partition once the
re-attached `get_attr` prefix is disregarded. -/
theorem topological_partition_target_isolation {g : Graph}
    {targets : List ℕ} {parts : List (List ℕ)}
    (hids : (g.map Node.id).Nodup) (ha : AttrFree g)
    (hta : ∀ n ∈ g, n.id ∈ targets → n.op ≠ Op.getattr)
    (hok : topological_partition g targets = Except.ok parts) :
    (∀ t ∈ parts.getD 0 [], t ∉ targets) ∧
    (∀ k : ℕ, ∀ t1 ∈ parts.getD k [], ∀ t2 ∈ parts.getD k [],
      t1 ∈ targets → t2 ∈ targets → t1 = t2) ∧
    (∀ k : ℕ, ∀ t ∈ parts.getD k [], t ∈ targets →
      ((parts.getD k []).filter fun x => ! isGetAttr g x).head? = some t) := by
  obtain ⟨hc, hqnil, hatt, hcov⟩ := topological_partition_ok_elim hok
  have hinv : KInv g targets
      (kahnLoop g targets (2 * g.length + 1) (initState g)) :=
    @kahnLoop_inv g targets hc ha (2 * g.length + 1) (initState g)
      (@initState_inv g targets hids)
  have hmain := attach_fold_ok g
    (kahnLoop g targets (2 * g.length + 1) (initState g)).partitions hids g
    (kahnLoop g targets (2 * g.length + 1) (initState g)).partitions parts
    (fun m hm => hm) hids
    ⟨rfl, fun k => ⟨[], rfl, fun x hx => absurd hx (List.not_mem_nil x)⟩⟩
    hinv.pn ?_ hatt
  swap
  · intro m hm hmop hmem
    have hfalse := hinv.na m.id (Or.inr hmem)
    rw [isGetAttr_of_node hids hm hmop] at hfalse
    cases hfalse
  obtain ⟨ps0, cur0, -, -, hshape⟩ := hinv.shape
  have hio := hmain.1
  have hkna : ∀ k : ℕ, ∀ x ∈ (kahnLoop g targets (2 * g.length + 1)
      (initState g)).partitions.getD k [], isGetAttr g x = false := by
    intro k x hx
    exact hinv.na x (Or.inr (mem_getD_flatten _ k hx))
  have hins_nt : ∀ x : ℕ, isGetAttr g x = true → x ∉ targets := by
    intro x hx hxt
    obtain ⟨n, hn, hid, hop⟩ := isGetAttr_true hx
    exact hta n hn (by rw [hid]; exact hxt) hop
  have hkey : ∀ k : ℕ, ∀ t ∈ parts.getD k [], t ∈ targets →
      ∃ tl, (kahnLoop g targets (2 * g.length + 1)
        (initState g)).partitions.getD k [] = t :: tl ∧
        ∀ x ∈ tl, x ∉ targets := by
    intro k t ht htarg
    obtain ⟨ins, hins, hina⟩ := hio.2 k
    rw [hins] at ht
    rcases List.mem_append.mp ht with ht' | ht'
    · exact absurd htarg (hins_nt t (hina t ht'))
    · have hklt : k < (kahnLoop g targets (2 * g.length + 1)
          (initState g)).partitions.length := by
        by_contra hk
        rw [List.getD_eq_default _ _ (by omega)] at ht'
        cases ht'
      cases k with
      | zero => exact absurd htarg (hshape.1 t ht')
      | succ k =>
        obtain ⟨ts, tl, he, hts, htl⟩ :=
          ShapeOK_getD_tail hshape (by omega) hklt
        rw [he] at ht'
        rcases List.mem_cons.mp ht' with ht2 | ht2
        · rw [← ht2] at he
          exact ⟨tl, he, htl⟩
        · exact absurd htarg (htl t ht2)
  refine ⟨?_, ?_, ?_⟩
  · intro t ht htarg
    obtain ⟨ins, hins, hina⟩ := hio.2 0
    rw [hins] at ht
    rcases List.mem_append.mp ht with ht' | ht'
    · exact hins_nt t (hina t ht') htarg
    · exact hshape.1 t ht' htarg
  · intro k t1 ht1 t2 ht2 htarg1 htarg2
    obtain ⟨tl1, he1, -⟩ := hkey k t1 ht1 htarg1
    obtain ⟨tl2, he2, -⟩ := hkey k t2 ht2 htarg2
    rw [he1] at he2
    have h3 : some t1 = some t2 := congrArg List.head? he2
    exact Option.some.inj h3
  · intro k t ht htarg
    obtain ⟨tl, he, -⟩ := hkey k t ht htarg
    obtain ⟨ins, hins, hina⟩ := hio.2 k
    rw [hins, List.filter_append]
    have hfins : ins.filter (fun x => ! isGetAttr g x) = [] := by
      rw [List.filter_eq_nil_iff]
      intro a hax
      rw [hina a hax]
      simp
    have hfk : ((kahnLoop g targets (2 * g.length + 1)
        (initState g)).partitions.getD k []).filter
        (fun x => ! isGetAttr g x) =
        (kahnLoop g targets (2 * g.length + 1)
          (initState g)).partitions.getD k [] := by
      rw [List.filter_eq_self]
      intro a hax
      rw [hkna k a hax]
      rfl
    rw [hfins, hfk, List.nil_append, he]
    rfl

/-- C6 counterexample: `exGraphC6` passes `check_assumption` (edge
consistency), yet node 3 — a `get_attr` node that also has an input, so it
is both scheduled by Kahn's loop and re-attached afterwards — ends up in
two partitions: the returned partitions are not pairwise disjoint. -/
theorem topological_partition_overlap_counterexample :
    check_assumption exGraphC6 = true ∧
    topological_partition exGraphC6 [2] = Except.ok [[3, 0, 1], [2, 3, 4]] ∧
    ¬ (([[3, 0, 1], [2, 3, 4]] : List (List ℕ)).flatten).Nodup := by
  decide

theorem topological_partition_exact_cover_witness :
    ([[0], [2, 1, 3]] : List (List ℕ)).flatten.Nodup ∧
    ∀ i : ℕ, i ∈ ([[0], [2, 1, 3]] : List (List ℕ)).flatten ↔
      i ∈ exGraphOk.map Node.id :=
  @topological_partition_exact_cover exGraphOk [1] [[0], [2, 1, 3]]
    (by decide) (by decide) (by decide)

/-- C7 counterexample: in `exGraphC7` the target node 1 lands in partition
[2, 1, 3] whose first element is the re-attached `get_attr` node 2, so a
target need not be the first node of its partition. -/
theorem topological_partition_target_not_head_counterexample :
    check_assumption exGraphC7 = true ∧
    topological_partition exGraphC7 [1] = Except.ok [[0], [2, 1, 3]] ∧
    (1 : ℕ) ∈ ([2, 1, 3] : List ℕ) ∧
    ([2, 1, 3] : List ℕ).head? ≠ some 1 := by
  decide

theorem topological_partition_target_isolation_witness :
    (∀ t ∈ ([[0], [2, 1, 3]] : List (List ℕ)).getD 0 [],
      t ∉ ([1] : List ℕ)) ∧
    (∀ k : ℕ, ∀ t1 ∈ ([[0], [2, 1, 3]] : List (List ℕ)).getD k [],
      ∀ t2 ∈ ([[0], [2, 1, 3]] : List (List ℕ)).getD k [],
      t1 ∈ ([1] : List ℕ) → t2 ∈ ([1] : List ℕ) → t1 = t2) ∧
    (∀ k : ℕ, ∀ t ∈ ([[0], [2, 1, 3]] : List (List ℕ)).getD k [],
      t ∈ ([1] : List ℕ) →
      ((([[0], [2, 1, 3]] : List (List ℕ)).getD k []).filter
        fun x => ! isGetAttr exGraphOk x).head? = some t) :=
  @topological_partition_target_isolation exGraphOk [1] [[0], [2, 1, 3]]
    (by decide) (by decide) (by decide) (by decide)

lemma findIdx?_some_spec {α : Type _} (p : α → Bool) :
    ∀ (l : List α) (i k : ℕ), List.findIdx? p l i = some k →
      (∃ a, l[k - i]? = some a ∧ p a = true) ∧
      ∀ m, m < k - i → ∀ a, l[m]? = some a → p a = false := by
  intro l
  induction l with
  | nil => intro i k h; cases h
  | cons a l ih =>
    intro i k h
    rw [List.findIdx?_cons] at h
    by_cases hp : p a = true
    · rw [if_pos hp] at h
      injection h with h
      subst h
      refine ⟨⟨a, by simp, hp⟩, ?_⟩
      intro m hm
      exact absurd hm (by omega)
    · rw [if_neg hp] at h
      have hb := findIdx?_some_bound p l (i + 1) k h
      have hs := ih (i + 1) k h
      have hki : k - i = (k - (i + 1)) + 1 := by omega
      refine ⟨?_, ?_⟩
      · rw [hki]
        obtain ⟨x, hx1, hx2⟩ := hs.1
        exact ⟨x, by rw [List.getElem?_cons_succ]; exact hx1, hx2⟩
      · intro m hm b hbm
        cases m with
        | zero =>
          rw [List.getElem?_cons_zero] at hbm
          injection hbm with hbm
          rw [← hbm]
          simpa using hp
        | succ m =>
          rw [List.getElem?_cons_succ] at hbm
          exact hs.2 m (by omega) b hbm

lemma findIdx?_isSome {α : Type _} (p : α → Bool) :
    ∀ (l : List α) (i : ℕ), (∃ x ∈ l, p x = true) →
      ∃ k, List.findIdx? p l i = some k := by
  intro l
  induction l with
  | nil => intro i h; obtain ⟨x, hx, _⟩ := h; cases hx
  | cons a l ih =>
    intro i h
    rw [List.findIdx?_cons]
    by_cases hp : p a = true
    · exact ⟨i, by rw [if_pos hp]⟩
    · rw [if_neg hp]
      obtain ⟨x, hx, hpx⟩ := h
      rcases List.mem_cons.mp hx with he | hx'
      · rw [he] at hpx; exact absurd hpx hp
      · exact ih (i + 1) ⟨x, hx', hpx⟩

lemma lastUserIdx_some {inputNames : List (List ℕ)} {name : ℕ}
    (h : name ∈ inputNames.flatten) :
    ∃ j, lastUserIdx inputNames name = some j := by
  obtain ⟨l, hl, hnl⟩ := List.mem_flatten.mp h
  obtain ⟨k, hk⟩ := findIdx?_isSome (fun l => l.contains name)
    inputNames.reverse 0
    ⟨l, List.mem_reverse.mpr hl, by simpa using hnl⟩
  exact ⟨inputNames.length - 1 - k, by rw [lastUserIdx, hk]⟩

lemma lastUserIdx_spec (inputNames : List (List ℕ)) (name : ℕ) (j : ℕ)
    (h : lastUserIdx inputNames name = some j) :
    j < inputNames.length ∧ name ∈ inputNames.getD j [] ∧
    ∀ k, j < k → name ∉ inputNames.getD k [] := by
  rw [lastUserIdx] at h
  cases hf : (inputNames.reverse).findIdx? (fun l => l.contains name) with
  | none => rw [hf] at h; cases h
  | some kr =>
    rw [hf] at h
    injection h with h
    have hb := findIdx?_some_bound _ _ 0 kr hf
    have hs := findIdx?_some_spec _ _ 0 kr hf
    rw [Nat.sub_zero] at hs
    have hkr : kr < inputNames.length := by
      have h2 := hb.2
      rw [Nat.sub_zero, List.length_reverse] at h2
      exact h2
    have hjv : j = inputNames.length - 1 - kr := h.symm
    have hjlt : j < inputNames.length := by omega
    refine ⟨hjlt, ?_, ?_⟩
    · obtain ⟨a, ha1, ha2⟩ := hs.1
      rw [List.getElem?_reverse hkr] at ha1
      have hidx : inputNames.length - 1 - kr = j := by omega
      rw [hidx] at ha1
      rw [List.getD_eq_getElem?_getD, ha1, Option.getD_some]
      simpa using ha2
    · intro k hk hmem
      by_cases hklen : k < inputNames.length
      · have hm : inputNames.length - 1 - k < kr := by omega
        have hrev : inputNames.reverse[inputNames.length - 1 - k]? =
            inputNames[k]? := by
          rw [List.getElem?_reverse (by omega)]
          have : inputNames.length - 1 - (inputNames.length - 1 - k) = k := by
            omega
          rw [this]
        have hksome : inputNames[k]? = some (inputNames.getD k []) := by
          rw [List.getD_eq_getElem?_getD, List.getElem?_eq_getElem hklen,
            Option.getD_some]
        have hfalse := hs.2 (inputNames.length - 1 - k) hm
          (inputNames.getD k []) (by rw [hrev]; exact hksome)
        have : name ∈ inputNames.getD k [] → False := by
          intro hmm
          rw [show ((inputNames.getD k []).contains name) = true
            from by simpa using hmm] at hfalse
          cases hfalse
        exact this hmem
      · rw [List.getD_eq_default _ _ (by omega)] at hmem
        cases hmem

lemma lastUserIdx_lt {inputNames : List (List ℕ)} {name : ℕ} {j : ℕ}
    (h : lastUserIdx inputNames name = some j) : j < inputNames.length :=
  (lastUserIdx_spec inputNames name j h).1

lemma getD_replicate_nil :
    ∀ (n k : ℕ), (List.replicate n ([] : List ℕ)).getD k [] = [] := by
  intro n
  induction n with
  | zero => intro k; rfl
  | succ n ih =>
    intro k
    cases k with
    | zero => rfl
    | succ k =>
      rw [List.replicate_succ, List.getD_cons_succ]
      exact ih k

lemma populate_fold_spec (inputNames : List (List ℕ)) :
    ∀ (names : List ℕ) (cons : List (List ℕ)),
      cons.length = inputNames.length →
      ∀ (k x : ℕ),
        x ∈ (names.foldl (consumeStep inputNames) cons).getD k [] ↔
        x ∈ cons.getD k [] ∨
          (x ∈ names ∧ lastUserIdx inputNames x = some k) := by
  intro names
  induction names with
  | nil =>
    intro cons hlen k x
    simp
  | cons name names ih =>
    intro cons hlen k x
    rw [List.foldl_cons]
    cases hl : lastUserIdx inputNames name with
    | none =>
      have hstep : consumeStep inputNames cons name = cons := by
        rw [consumeStep, hl]
      rw [hstep, ih cons hlen k x]
      constructor
      · rintro (h | h)
        · exact Or.inl h
        · exact Or.inr ⟨List.mem_cons_of_mem _ h.1, h.2⟩
      · rintro (h | h)
        · exact Or.inl h
        · rcases h with ⟨hx, hlast⟩
          rcases List.mem_cons.mp hx with he | h1
          · rw [he, hl] at hlast
            cases hlast
          · exact Or.inr ⟨h1, hlast⟩
    | some j =>
      have hjlt : j < inputNames.length := lastUserIdx_lt hl
      have hstep : consumeStep inputNames cons name =
          cons.set j (cons.getD j [] ++ [name]) := by
        rw [consumeStep, hl]
      rw [hstep, ih _ (by rw [List.length_set]; exact hlen) k x]
      by_cases hk : j = k
      · rw [← hk]
        rw [getD_set_self cons j _ (by omega)]
        constructor
        · rintro (h | h)
          · rcases List.mem_append.mp h with h' | h'
            · exact Or.inl h'
            · rw [List.mem_singleton] at h'
              rw [h']
              exact Or.inr ⟨List.mem_cons_self _ _, hl⟩
          · exact Or.inr ⟨List.mem_cons_of_mem _ h.1, h.2⟩
        · rintro (h | h)
          · exact Or.inl (List.mem_append.mpr (Or.inl h))
          · rcases h with ⟨hx, hlast⟩
            rcases List.mem_cons.mp hx with he | h1
            · exact Or.inl (List.mem_append.mpr
                (Or.inr (List.mem_singleton.mpr he)))
            · exact Or.inr ⟨h1, hlast⟩
      · rw [getD_set_ne cons j k _ hk]
        constructor
        · rintro (h | h)
          · exact Or.inl h
          · exact Or.inr ⟨List.mem_cons_of_mem _ h.1, h.2⟩
        · rintro (h | h)
          · exact Or.inl h
          · rcases h with ⟨hx, hlast⟩
            rcases List.mem_cons.mp hx with he | h1
            · rw [he, hl] at hlast
              injection hlast with hlast
              exact absurd hlast hk
            · exact Or.inr ⟨h1, hlast⟩

/-- C8: every input name appearing in any subgraph's `input_names` is
recorded in the `consumed_names` of exactly one subgraph — the last one in
execution order whose `input_names` contain it — so during sequential
execution the cached intermediate is deleted exactly once, after its last
use, and no later subgraph reads a deleted name. -/
theorem populate_consumed_exactly_once {inputNames : List (List ℕ)}
    {name : ℕ} (h : name ∈ inputNames.flatten) :
    ∃ j : ℕ, lastUserIdx inputNames name = some j ∧
      name ∈ (populate_consumed inputNames).getD j [] ∧
      (∀ k : ℕ, name ∈ (populate_consumed inputNames).getD k [] → k = j) ∧
      name ∈ inputNames.getD j [] ∧
      ∀ k : ℕ, j < k → name ∉ inputNames.getD k [] := by
  obtain ⟨j, hj⟩ := lastUserIdx_some h
  obtain ⟨hjlt, hjmem, hjlast⟩ := lastUserIdx_spec inputNames name j hj
  have hdedup : name ∈ (inputNames.flatten).dedup := List.mem_dedup.mpr h
  have hspec := populate_fold_spec inputNames (inputNames.flatten).dedup
    (List.replicate inputNames.length []) (by rw [List.length_replicate])
  refine ⟨j, hj, ?_, ?_, hjmem, hjlast⟩
  · rw [populate_consumed, hspec j name]
    exact Or.inr ⟨hdedup, hj⟩
  · intro k hk
    rw [populate_consumed, hspec k name] at hk
    rcases hk with hk' | hk'
    · rw [getD_replicate_nil] at hk'
      cases hk'
    · have h2 := hk'.2
      rw [hj] at h2
      injection h2 with h2
      exact h2.symm

theorem populate_consumed_exactly_once_witness :
    ∃ j : ℕ, lastUserIdx [[5], [5, 7], [7]] 5 = some j ∧
      (5 : ℕ) ∈ (populate_consumed [[5], [5, 7], [7]]).getD j [] ∧
      (∀ k : ℕ, (5 : ℕ) ∈ (populate_consumed [[5], [5, 7], [7]]).getD k [] →
        k = j) ∧
      (5 : ℕ) ∈ ([[5], [5, 7], [7]] : List (List ℕ)).getD j [] ∧
      ∀ k : ℕ, j < k →
        (5 : ℕ) ∉ ([[5], [5, 7], [7]] : List (List ℕ)).getD k [] :=
  @populate_consumed_exactly_once [[5], [5, 7], [7]] 5 (by decide)

/-- C1: the sequential replay is not equivalent to the unpartitioned
forward pass.  In `exC1` — a well-formed traced graph whose sequential
target 2 is a dead end — the output node is scheduled into the first
partition, so the first (non-final) subgraph returns the model output,
which merges no node names into the intermediates cache; its consumed
input is deleted, the final subgraph then reads a missing name
(`KeyError`), and no path returns the model output 42. -/
theorem partitioned_forward_not_equivalent_eval :
    check_assumption exC1 = true ∧
    topological_partition exC1 [2] = Except.ok [[0, 1, 3], [2]] ∧
    model_forward semC1 exC1 kwC1 = some 42 ∧
    partitioned_forward semC1 exC1 [[0, 1, 3], [2]] kwC1 = none ∧
    partitioned_forward semC1 exC1 [[0, 1, 3], [2]] kwC1 ≠
      (model_forward semC1 exC1 kwC1).map Sum.inr := by
  refine ⟨by decide, by decide, by decide, by decide, ?_⟩
  intro h
  rw [show partitioned_forward semC1 exC1 [[0, 1, 3], [2]] kwC1 = none
    from by decide, show model_forward semC1 exC1 kwC1 = some 42
    from by decide] at h
  cases h

end Partition
